import Mathlib

/-!
Verification of the Golomb Coded Set filter codec of the `mohan` repository
(src/golomb/mod.rs and src/golomb/bits.rs), via a shallow embedding in Lean.

Machine integers (`u64`, `u8`) are embedded as `Nat` with an explicit
`% 2 ^ 64` (resp. `% 2 ^ 8` / `% 256`) at every operation where the Rust
code can wrap; fallible operations return `Except`.  Byte strings are
`List Nat` (each entry a byte value).
-/

namespace Mohan

/-! ### Bit-list vocabulary

The bitstream layer of the codec packs values most-significant-bit first.
We describe streams abstractly as `List Bool` (`true` = 1 bit).
`natBits v n` is the list of the low `n` bits of `v`, MSB first;
`bitsToNat` folds such a list back into a number. -/

/-- The low `n` bits of `v`, most significant first. -/
def natBits (v : Nat) : Nat → List Bool
  | 0 => []
  | n + 1 => v.testBit n :: natBits v n

/-- Fold an MSB-first bit list into the number it denotes. -/
def bitsToNat (l : List Bool) : Nat :=
  l.foldl (fun a b => 2 * a + (if b then 1 else 0)) 0

/-- The bits of a byte, most significant first. -/
def byteBits (b : Nat) : List Bool := natBits b 8

/-- The bit stream denoted by a byte list. -/
def bytesBits : List Nat → List Bool
  | [] => []
  | b :: bs => byteBits b ++ bytesBits bs

theorem natBits_length (v n : Nat) : (natBits v n).length = n := by
  induction n with
  | zero => rfl
  | succ k ih => simp [natBits, ih]

theorem natBits_congr {x y : Nat} (n : Nat) (h : ∀ i, i < n → x.testBit i = y.testBit i) :
    natBits x n = natBits y n := by
  induction n with
  | zero => rfl
  | succ k ih =>
    simp only [natBits]
    exact congrArg₂ _ (h k (by omega)) (ih fun i hi => h i (by omega))

/-- Splitting an MSB-first window of `o + b` bits into its top `o` and bottom `b` bits. -/
theorem natBits_split (x o b : Nat) :
    natBits x (o + b) = natBits (x >>> b) o ++ natBits x b := by
  induction o with
  | zero => simp [natBits]
  | succ k ih =>
    have h1 : k + 1 + b = (k + b) + 1 := by omega
    simp only [h1, natBits, ih, List.cons_append]
    congr 1
    simp [Nat.testBit_shiftRight]
    congr 1
    omega

theorem natBits_mod_two_pow (x n : Nat) : natBits (x % 2 ^ n) n = natBits x n := by
  refine natBits_congr n fun i hi => ?_
  simp [Nat.testBit_mod_two_pow, hi]

theorem bitsToNat_nil : bitsToNat [] = 0 := rfl

theorem bitsToNat_append_acc (l : List Bool) (a : Nat) :
    l.foldl (fun a b => 2 * a + (if b then 1 else 0)) a =
      a * 2 ^ l.length + bitsToNat l := by
  induction l generalizing a with
  | nil => simp [bitsToNat]
  | cons b t ih =>
    simp only [List.foldl_cons, bitsToNat, List.length_cons]
    rw [ih, ih (2 * 0 + _)]
    have h2 : (2 : Nat) ^ (t.length + 1) = 2 ^ t.length * 2 := by ring
    rw [h2]
    cases b <;> simp <;> ring

theorem bitsToNat_cons (b : Bool) (l : List Bool) :
    bitsToNat (b :: l) = (if b then 1 else 0) * 2 ^ l.length + bitsToNat l := by
  simp only [bitsToNat, List.foldl_cons]
  rw [bitsToNat_append_acc l (2 * 0 + _)]
  simp [bitsToNat]

theorem bitsToNat_append (l₁ l₂ : List Bool) :
    bitsToNat (l₁ ++ l₂) = bitsToNat l₁ * 2 ^ l₂.length + bitsToNat l₂ := by
  simp only [bitsToNat, List.foldl_append]
  rw [bitsToNat_append_acc]
  rfl

theorem bitsToNat_natBits (v n : Nat) : bitsToNat (natBits v n) = v % 2 ^ n := by
  induction n with
  | zero => simp [natBits, bitsToNat, Nat.mod_one]
  | succ k ih =>
    simp only [natBits, bitsToNat_cons, natBits_length, ih]
    have h1 : v % 2 ^ (k + 1) = v % 2 ^ k + 2 ^ k * (v / 2 ^ k % 2) := by
      conv_lhs => rw [show (2 : Nat) ^ (k + 1) = 2 ^ k * 2 by ring]
      exact Nat.mod_mul
    have h2 : v.testBit k = decide (v / 2 ^ k % 2 = 1) := Nat.testBit_to_div_mod ..
    have h3 : v / 2 ^ k % 2 = 0 ∨ v / 2 ^ k % 2 = 1 := by omega
    rcases h3 with h3 | h3 <;> simp [h2, h3, h1]
    omega

theorem bitsToNat_lt (l : List Bool) : bitsToNat l < 2 ^ l.length := by
  induction l with
  | nil => simp [bitsToNat]
  | cons b t ih =>
    rw [bitsToNat_cons]
    simp only [List.length_cons, Nat.pow_succ]
    cases b <;> simp <;> omega

theorem bitsToNat_replicate_false (n : Nat) :
    bitsToNat (List.replicate n false) = 0 := by
  induction n with
  | zero => rfl
  | succ k ih => rw [List.replicate_succ, bitsToNat_cons, ih]; simp

/-! ### Range mapper (src/golomb/mod.rs, `map_to_range`)

The source splits each operand into 32-bit halves with the inner helpers
`l` and `h` and combines partial products in wrapping `u64` arithmetic:
`a * c + h(a * d + c * b + h(b * d))`.  We write the halving helpers as
`l64` / `h64` and make the one place where the `u64` sum can wrap explicit
with `% 2 ^ 64` (the final sum is also reduced, mirroring the `u64` result
type, though it cannot wrap). -/

/-- Low 32-bit half, `n & 0xffffffff` in the source. -/
def l64 (n : Nat) : Nat := n &&& 0xffffffff

/-- High 32-bit half, `n >> 32` in the source. -/
def h64 (n : Nat) : Nat := n >>> 32

/-- Embedding of `map_to_range(hash, nm)`: fast reduction of a hash to the
`[0, nm)` range. -/
def map_to_range (hash nm : Nat) : Nat :=
  let a := h64 hash
  let b := l64 hash
  let c := h64 nm
  let d := l64 nm
  (a * c + h64 ((a * d + c * b + h64 (b * d)) % 2 ^ 64)) % 2 ^ 64

theorem l64_eq_mod (x : Nat) : l64 x = x % 2 ^ 32 := by
  unfold l64
  apply Nat.eq_of_testBit_eq; intro i
  rw [Nat.testBit_and, Nat.testBit_mod_two_pow,
    show (0xffffffff : Nat) = 2 ^ 32 - 1 by norm_num, Nat.testBit_two_pow_sub_one]
  by_cases hi : i < 32 <;> simp [hi]

theorem h64_eq_div (x : Nat) : h64 x = x / 2 ^ 32 := by
  simp [h64, Nat.shiftRight_eq_div_pow]

/-- The exact 64×64→high-64 multiplication identity: with `a, b, c, d` the
32-bit halves, `floor(h·n / 2^64) = a·c + (a·d + c·b + (b·d >> 32)) >> 32`,
computed without any wrapping. -/
theorem mulhi_exact (h n : Nat) :
    h * n / 2 ^ 64 =
      h64 h * h64 n + (h64 h * l64 n + h64 n * l64 h + h64 (l64 h * l64 n)) / 2 ^ 32 := by
  rw [l64_eq_mod, l64_eq_mod, h64_eq_div, h64_eq_div, h64_eq_div]
  set A := h / 2 ^ 32 with hA
  set B := h % 2 ^ 32 with hB
  set C := n / 2 ^ 32 with hC
  set D := n % 2 ^ 32 with hD
  have hh2 : h = 2 ^ 32 * A + B := (Nat.div_add_mod h (2 ^ 32)).symm
  have hn2 : n = 2 ^ 32 * C + D := (Nat.div_add_mod n (2 ^ 32)).symm
  have hbd : 2 ^ 32 * (B * D / 2 ^ 32) + B * D % 2 ^ 32 = B * D :=
    Nat.div_add_mod (B * D) (2 ^ 32)
  have hR : B * D % 2 ^ 32 < 2 ^ 32 := Nat.mod_lt _ (by norm_num)
  have key : h * n =
      B * D % 2 ^ 32 + (A * C * 2 ^ 32 + (A * D + C * B + B * D / 2 ^ 32)) * 2 ^ 32 := by
    conv_lhs => rw [hh2, hn2]
    have expand : (2 ^ 32 * A + B) * (2 ^ 32 * C + D) =
        (2 ^ 32 * (B * D / 2 ^ 32) + B * D % 2 ^ 32) +
          (A * C * 2 ^ 32 + (A * D + C * B)) * 2 ^ 32 := by
      rw [hbd]; ring
    rw [expand]; ring
  have step1 : h * n / 2 ^ 32 = A * C * 2 ^ 32 + (A * D + C * B + B * D / 2 ^ 32) := by
    rw [key, Nat.add_mul_div_right _ _ (by norm_num : (0:Nat) < 2 ^ 32),
      Nat.div_eq_of_lt hR, Nat.zero_add]
  have step2 : h * n / 2 ^ 64 = h * n / 2 ^ 32 / 2 ^ 32 := by
    rw [Nat.div_div_eq_div_mul]; norm_num
  rw [step2, step1, Nat.add_comm (A * C * 2 ^ 32), Nat.add_mul_div_right _ _
    (by norm_num : (0:Nat) < 2 ^ 32)]
  ring

theorem h64_lt (x : Nat) (hx : x < 2 ^ 64) : h64 x < 2 ^ 32 := by
  rw [h64_eq_div]
  have hx2 : x < 2 ^ 32 * 2 ^ 32 := by norm_num at hx ⊢; omega
  exact Nat.div_lt_of_lt_mul hx2

/-- The implemented reduction never exceeds the exact high half: losing the
carry of the wrapped intermediate sum can only shrink the result. -/
theorem map_to_range_le_mulhi (h n : Nat) (hh : h < 2 ^ 64) (hn : n < 2 ^ 64) :
    map_to_range h n ≤ h * n / 2 ^ 64 := by
  have ha : h64 h < 2 ^ 32 := h64_lt h hh
  have hc : h64 n < 2 ^ 32 := h64_lt n hn
  simp only [map_to_range]
  have hS2 : h64 ((h64 h * l64 n + h64 n * l64 h + h64 (l64 h * l64 n)) % 2 ^ 64) < 2 ^ 32 :=
    h64_lt _ (Nat.mod_lt _ (by norm_num))
  have hbound : h64 h * h64 n +
      h64 ((h64 h * l64 n + h64 n * l64 h + h64 (l64 h * l64 n)) % 2 ^ 64) < 2 ^ 64 := by
    have h1 : h64 h * h64 n ≤ (2 ^ 32 - 1) * (2 ^ 32 - 1) :=
      Nat.mul_le_mul (by omega) (by omega)
    norm_num at h1 hS2 ⊢; omega
  rw [Nat.mod_eq_of_lt hbound, mulhi_exact h n]
  apply Nat.add_le_add_left
  rw [h64_eq_div]
  exact Nat.div_le_div_right (Nat.mod_le _ _)

/-- When the intermediate `u64` sum does not wrap, the implemented reduction
computes the exact high half. -/
theorem map_to_range_eq_mulhi_of_no_overflow (h n : Nat) (hh : h < 2 ^ 64) (hn : n < 2 ^ 64)
    (hnof : h64 h * l64 n + h64 n * l64 h + h64 (l64 h * l64 n) < 2 ^ 64) :
    map_to_range h n = h * n / 2 ^ 64 := by
  have ha : h64 h < 2 ^ 32 := h64_lt h hh
  have hc : h64 n < 2 ^ 32 := h64_lt n hn
  simp only [map_to_range]
  rw [Nat.mod_eq_of_lt hnof]
  have hS2 : h64 (h64 h * l64 n + h64 n * l64 h + h64 (l64 h * l64 n)) < 2 ^ 32 :=
    h64_lt _ hnof
  have hmod : (h64 h * h64 n + h64 (h64 h * l64 n + h64 n * l64 h + h64 (l64 h * l64 n))) % 2 ^ 64
      = h64 h * h64 n + h64 (h64 h * l64 n + h64 n * l64 h + h64 (l64 h * l64 n)) := by
    apply Nat.mod_eq_of_lt
    have h1 : h64 h * h64 n ≤ (2 ^ 32 - 1) * (2 ^ 32 - 1) :=
      Nat.mul_le_mul (by omega) (by omega)
    norm_num at h1 hS2 ⊢; omega
  rw [hmod, h64_eq_div (h64 h * l64 n + h64 n * l64 h + h64 (l64 h * l64 n))]
  exact (mulhi_exact h n).symm

/-- Claim C1, counterexample: at `hash = n = 2^64 - 1` the implemented
`map_to_range` does not equal `floor(hash * n / 2^64)` — the intermediate
64-bit sum `a*d + c*b + hi32(b*d)` wraps and a carry of `2^32` is lost. -/
theorem C1_counterexample :
    map_to_range (2 ^ 64 - 1) (2 ^ 64 - 1) ≠ (2 ^ 64 - 1) * (2 ^ 64 - 1) / 2 ^ 64 := by
  decide

/-- Claim C1 (amended): for every 64-bit `h` and `n`, `map_to_range h n` never
exceeds `floor(h * n / 2^64)`, and equals it exactly when the intermediate
sum `hi32(h)·lo32(n) + hi32(n)·lo32(h) + hi32(lo32(h)·lo32(n))` does not
overflow 64 bits (the stated unconditional equality fails, see the
counterexample). -/
theorem C1_map_to_range_mulhi (h n : Nat) (hh : h < 2 ^ 64) (hn : n < 2 ^ 64) :
    map_to_range h n ≤ h * n / 2 ^ 64 ∧
      (h64 h * l64 n + h64 n * l64 h + h64 (l64 h * l64 n) < 2 ^ 64 →
        map_to_range h n = h * n / 2 ^ 64) :=
  ⟨map_to_range_le_mulhi h n hh hn,
    fun hnof => map_to_range_eq_mulhi_of_no_overflow h n hh hn hnof⟩

/-- Claim C1 witness: the amended theorem applied at `h = 0xdeadbeef`,
`n = 784931`. -/
theorem C1_map_to_range_mulhi_witness :
    (0xdeadbeef : Nat) < 2 ^ 64 ∧ (784931 : Nat) < 2 ^ 64 ∧
      (map_to_range 0xdeadbeef 784931 ≤ 0xdeadbeef * 784931 / 2 ^ 64 ∧
        (h64 0xdeadbeef * l64 784931 + h64 784931 * l64 0xdeadbeef +
            h64 (l64 0xdeadbeef * l64 784931) < 2 ^ 64 →
          map_to_range 0xdeadbeef 784931 = 0xdeadbeef * 784931 / 2 ^ 64)) :=
  ⟨by norm_num, by norm_num,
    C1_map_to_range_mulhi 0xdeadbeef 784931 (by norm_num) (by norm_num)⟩

/-- Claim C9: `map_to_range` is a pure function of its two arguments, its
output is strictly below `n` whenever `0 < n`, and it is `0` when `n = 0`. -/
theorem C9_map_to_range_pure_range (h n : Nat) (hh : h < 2 ^ 64) (hn : n < 2 ^ 64) :
    (∀ h2 n2, h2 = h → n2 = n → map_to_range h2 n2 = map_to_range h n) ∧
      (0 < n → map_to_range h n < n) ∧ (n = 0 → map_to_range h n = 0) := by
  refine ⟨fun h2 n2 e1 e2 => by rw [e1, e2], fun hpos => ?_, fun hz => ?_⟩
  · have hle := map_to_range_le_mulhi h n hh hn
    have hfloor : h * n / 2 ^ 64 < n := by
      have h1 : h * n ≤ (2 ^ 64 - 1) * n := Nat.mul_le_mul_right n (by omega)
      have h2 : (2 ^ 64 - 1) * n < 2 ^ 64 * n :=
        (Nat.mul_lt_mul_right hpos).2 (by norm_num)
      have h3 : h * n < n * 2 ^ 64 := by
        rw [Nat.mul_comm n (2 ^ 64)]; omega
      exact (Nat.div_lt_iff_lt_mul (by norm_num)).2 h3
    omega
  · subst hz
    simp [map_to_range, h64, l64]

/-- Claim C9 witness: the theorem applied at `h = 5`, `n = 3`, plus the
discharge of the `0 < n` and `n = 0` branches at concrete points. -/
theorem C9_map_to_range_pure_range_witness :
    (5 : Nat) < 2 ^ 64 ∧ (3 : Nat) < 2 ^ 64 ∧
      ((∀ h2 n2, h2 = 5 → n2 = 3 → map_to_range h2 n2 = map_to_range 5 3) ∧
        (0 < 3 → map_to_range 5 3 < 3) ∧ ((3 : Nat) = 0 → map_to_range 5 3 = 0)) :=
  ⟨by norm_num, by norm_num, C9_map_to_range_pure_range 5 3 (by norm_num) (by norm_num)⟩

/-! ### Generic bitwise helper facts -/

theorem shiftRight_or_distrib (a b k : Nat) : (a ||| b) >>> k = (a >>> k) ||| (b >>> k) := by
  apply Nat.eq_of_testBit_eq; intro i
  simp [Nat.testBit_shiftRight, Nat.testBit_or]

theorem mod_two_pow_or_distrib (a b k : Nat) :
    (a ||| b) % 2 ^ k = (a % 2 ^ k) ||| (b % 2 ^ k) := by
  apply Nat.eq_of_testBit_eq; intro i
  simp only [Nat.testBit_mod_two_pow, Nat.testBit_or]
  by_cases hi : i < k <;> simp [hi]

theorem shiftLeft_mod_self (x k : Nat) : (x <<< k) % 2 ^ k = 0 := by
  simp [Nat.shiftLeft_eq_mul_pow, Nat.mul_mod_left]

theorem shiftLeft_shiftRight_self (x k : Nat) : (x <<< k) >>> k = x := by
  simp [Nat.shiftLeft_eq_mul_pow, Nat.shiftRight_eq_div_pow, Nat.mul_div_cancel]

theorem shiftRight_eq_zero (x k : Nat) (h : x < 2 ^ k) : x >>> k = 0 := by
  simp [Nat.shiftRight_eq_div_pow, Nat.div_eq_of_lt h]

/-- A shifted value or-combined with a small value is their sum. -/
theorem shiftLeft_or_eq_add (x y k : Nat) (hy : y < 2 ^ k) :
    (x <<< k) ||| y = x <<< k + y := by
  have hsplit := Nat.div_add_mod ((x <<< k) ||| y) (2 ^ k)
  have hdiv : ((x <<< k) ||| y) / 2 ^ k = x := by
    rw [← Nat.shiftRight_eq_div_pow, shiftRight_or_distrib, shiftLeft_shiftRight_self,
      shiftRight_eq_zero y k hy, Nat.or_zero]
  have hmod : ((x <<< k) ||| y) % 2 ^ k = y := by
    rw [mod_two_pow_or_distrib, shiftLeft_mod_self, Nat.mod_eq_of_lt hy, Nat.zero_or]
  rw [hdiv, hmod] at hsplit
  rw [← hsplit, Nat.shiftLeft_eq_mul_pow]
  ring

theorem testBit_eq_false_of_mod_eq_zero {x k : Nat} (h : x % 2 ^ k = 0) {i : Nat}
    (hi : i < k) : x.testBit i = false := by
  have h1 : (x % 2 ^ k).testBit i = (decide (i < k) && x.testBit i) :=
    Nat.testBit_mod_two_pow ..
  rw [h] at h1
  simpa [hi, Nat.zero_testBit] using h1.symm

theorem shiftLeft_lt (x k n : Nat) (h : x < 2 ^ (n - k)) (hk : k ≤ n) : x <<< k < 2 ^ n := by
  rw [Nat.shiftLeft_eq_mul_pow]
  calc x * 2 ^ k < 2 ^ (n - k) * 2 ^ k :=
        (Nat.mul_lt_mul_right (Nat.pos_pow_of_pos k (by omega))).2 h
    _ = 2 ^ n := by rw [← Nat.pow_add]; congr 1; omega

theorem shiftRight_lt (x k n : Nat) (h : x < 2 ^ (n + k)) : x >>> k < 2 ^ n := by
  rw [Nat.shiftRight_eq_div_pow]
  apply Nat.div_lt_of_lt_mul
  rw [← Nat.pow_add]
  rwa [Nat.add_comm n k] at h

/-! ### Bit stream I/O (src/golomb/bits.rs)

`BitStreamReader` / `BitStreamWriter` wrap a byte-oriented source/sink with a
one-byte staging buffer and a bit offset.  We model the sink as the list of
bytes pushed so far and the source as the list of bytes not yet pulled.
The source code keeps the writer offset strictly below 8 between iterations
(the in-loop flush fires exactly when it reaches 8), and the reader offset at
most 8 (8 = staging buffer exhausted); we carry these facts in the states to
express the loops as structural recursion. -/

/-- The `std::io` errors reachable in this codec: `read_exact` hitting the end
of the source, and the explicit more-than-64-bits argument checks. -/
inductive IOError where
  | unexpectedEof : IOError
  | invalidInput : IOError
deriving DecidableEq, Repr

/-- State of `BitStreamWriter`: bytes already pushed to the wrapped sink, the
one-byte staging buffer, and how many of its bits are in use. -/
structure BitStreamWriter where
  bytes : List Nat
  buffer : Nat
  offset : Nat
  hoff : offset < 8

/-- Embedding of `BitStreamWriter::new`. -/
def BitStreamWriter.new : BitStreamWriter := ⟨[], 0, 0, by omega⟩

/-- Embedding of `BitStreamWriter::flush`: force out a partially filled byte,
returning how many bytes were pushed. -/
def BitStreamWriter.flush (w : BitStreamWriter) : BitStreamWriter × Nat :=
  if w.offset > 0 then (⟨w.bytes ++ [w.buffer], 0, 0, by omega⟩, 1) else (w, 0)

/-- The loop body of `BitStreamWriter::write`: pack the low `nbits` bits of
`data` (MSB first), flushing each time the staging byte fills up.  Mirrors
`buffer |= ((data << (64 - nbits)) >> (64 - 8 + offset)) as u8` with the
`u64` shift wrap and the `u8` truncation explicit. -/
def writeLoop (w : BitStreamWriter) (data nbits wrote : Nat) : BitStreamWriter × Nat :=
  if h0 : nbits = 0 then (w, wrote)
  else if h8 : w.offset + min (8 - w.offset) nbits = 8 then
    writeLoop
      ⟨w.bytes ++ [w.buffer ||| (((data <<< (64 - nbits)) % 2 ^ 64) >>> (64 - 8 + w.offset)) % 256],
        0, 0, by omega⟩
      data (nbits - min (8 - w.offset) nbits) (wrote + 1)
  else
    writeLoop
      ⟨w.bytes, w.buffer ||| (((data <<< (64 - nbits)) % 2 ^ 64) >>> (64 - 8 + w.offset)) % 256,
        w.offset + min (8 - w.offset) nbits, by
          have h1 : min (8 - w.offset) nbits ≤ 8 - w.offset := Nat.min_le_left _ _
          have h2 := w.hoff
          omega⟩
      data (nbits - min (8 - w.offset) nbits) wrote
termination_by nbits
decreasing_by
  all_goals
    have h1 : 1 ≤ min (8 - w.offset) nbits := by
      have := w.hoff
      omega
    omega

/-- Embedding of `BitStreamWriter::write`: refuses more than 64 bits, then
runs the packing loop (the in-memory sink itself cannot fail). -/
def BitStreamWriter.write (w : BitStreamWriter) (data nbits : Nat) :
    Except IOError (BitStreamWriter × Nat) :=
  if nbits > 64 then .error .invalidInput
  else .ok (writeLoop w data nbits 0)

/-- State of `BitStreamReader`: bytes not yet pulled from the source, the
one-byte staging buffer, and how many of its bits are consumed (8 = all). -/
structure BitStreamReader where
  input : List Nat
  buffer : Nat
  offset : Nat
  hoff : offset ≤ 8

/-- Embedding of `BitStreamReader::new` wrapping a byte list. -/
def BitStreamReader.new (bs : List Nat) : BitStreamReader := ⟨bs, 0, 8, by omega⟩

/-- The loop body of `BitStreamReader::read`: assemble `nbits` bits MSB first,
refilling the staging byte from the source when exhausted.  Mirrors
`data |= ((buffer[0] << offset) >> (8 - bits)) as u64` with the `u8` shift
truncation and the `u64` shift wrap explicit. -/
def readLoop (r : BitStreamReader) (nbits data : Nat) :
    Except IOError (Nat × BitStreamReader) :=
  if h0 : nbits = 0 then .ok (data, r)
  else if h8 : r.offset = 8 then
    match r.input with
    | [] => .error .unexpectedEof
    | b :: rest => readLoop ⟨rest, b, 0, by omega⟩ nbits data
  else
    readLoop
      ⟨r.input, r.buffer, r.offset + min (8 - r.offset) nbits, by
        have h1 : min (8 - r.offset) nbits ≤ 8 - r.offset := Nat.min_le_left _ _
        have h2 := r.hoff
        omega⟩
      (nbits - min (8 - r.offset) nbits)
      (((data <<< min (8 - r.offset) nbits) % 2 ^ 64) |||
        (((r.buffer <<< r.offset) % 256) >>> (8 - min (8 - r.offset) nbits)))
termination_by (nbits, if r.offset = 8 then 1 else 0)
decreasing_by
  · apply Prod.Lex.right
    simp [h8]
  · apply Prod.Lex.left
    have h1 := r.hoff
    have h2 : 1 ≤ min (8 - r.offset) nbits := by omega
    omega

/-- Embedding of `BitStreamReader::read`: refuses more than 64 bits, then runs
the assembly loop. -/
def BitStreamReader.read (r : BitStreamReader) (nbits : Nat) :
    Except IOError (Nat × BitStreamReader) :=
  if nbits > 64 then .error .invalidInput
  else readLoop r nbits 0

/-- Writer state invariant: the staging byte is a byte, only its top `offset`
bits are populated, and everything pushed to the sink is a byte. -/
def WInv (w : BitStreamWriter) : Prop :=
  w.buffer < 256 ∧ w.buffer % 2 ^ (8 - w.offset) = 0 ∧ ∀ b ∈ w.bytes, b < 256

/-- The bit stream a writer state denotes: everything pushed to the sink plus
the populated top bits of the staging byte. -/
def wBits (w : BitStreamWriter) : List Bool :=
  bytesBits w.bytes ++ natBits (w.buffer >>> (8 - w.offset)) w.offset

/-- Reader state invariant: staging byte and pending input are bytes. -/
def RInv (r : BitStreamReader) : Prop :=
  r.buffer < 256 ∧ ∀ b ∈ r.input, b < 256

/-- The bit stream still ahead of a reader state: the unconsumed low bits of
the staging byte plus the pending input bytes. -/
def rBits (r : BitStreamReader) : List Bool :=
  natBits r.buffer (8 - r.offset) ++ bytesBits r.input

theorem WInv_new : WInv BitStreamWriter.new := by
  refine ⟨by decide, by decide, fun b hb => ?_⟩
  simp [BitStreamWriter.new] at hb

theorem wBits_new : wBits BitStreamWriter.new = [] := by
  simp [wBits, BitStreamWriter.new, bytesBits, natBits]

theorem RInv_new (bs : List Nat) (h : ∀ b ∈ bs, b < 256) : RInv (BitStreamReader.new bs) :=
  ⟨by norm_num [BitStreamReader.new], by simpa [BitStreamReader.new] using h⟩

theorem rBits_new (bs : List Nat) : rBits (BitStreamReader.new bs) = bytesBits bs := by
  simp [rBits, BitStreamReader.new, natBits]

theorem bytesBits_append (l₁ l₂ : List Nat) :
    bytesBits (l₁ ++ l₂) = bytesBits l₁ ++ bytesBits l₂ := by
  induction l₁ with
  | nil => simp [bytesBits]
  | cons b t ih => simp [bytesBits, ih]

theorem natBits_zero (v : Nat) : natBits v 0 = [] := rfl

theorem mod_pow_zero_of_le {x a : Nat} (h : x % 2 ^ a = 0) {b : Nat} (hba : b ≤ a) :
    x % 2 ^ b = 0 := by
  have h1 : 2 ^ a ∣ x := Nat.dvd_of_mod_eq_zero h
  have h2 : 2 ^ b ∣ 2 ^ a := Nat.pow_dvd_pow 2 hba
  exact Nat.mod_eq_zero_of_dvd (h2.trans h1)

/-- The byte-local picture of one `write` loop iteration: the or-ed in `u8`
value is exactly the next `bits` bits of the `nbits`-bit field of `data`,
left-positioned under the already-used top `offset` bits of the buffer. -/
theorem write_chunk_ex (data nbits o : Nat) (ho : o < 8) (hn : 0 < nbits)
    (hn64 : nbits ≤ 64) :
    (((data <<< (64 - nbits)) % 2 ^ 64) >>> (64 - 8 + o)) % 256 =
      ((data >>> (nbits - min (8 - o) nbits)) % 2 ^ min (8 - o) nbits)
        <<< (8 - o - min (8 - o) nbits) := by
  have hb1 : min (8 - o) nbits ≤ 8 - o := Nat.min_le_left _ _
  have hb2 : min (8 - o) nbits ≤ nbits := Nat.min_le_right _ _
  have hb3 : min (8 - o) nbits = 8 - o ∨ min (8 - o) nbits = nbits := by omega
  set bits := min (8 - o) nbits with hbits
  apply Nat.eq_of_testBit_eq
  intro i
  rw [show (256 : Nat) = 2 ^ 8 by norm_num]
  simp only [Nat.testBit_mod_two_pow, Nat.testBit_shiftRight, Nat.testBit_shiftLeft,
    ge_iff_le]
  by_cases hg : 8 - o - bits ≤ i ∧ i < 8 - o
  · obtain ⟨hg1, hg2⟩ := hg
    have d1 : i < 8 := by omega
    have d2 : 64 - 8 + o + i < 64 := by omega
    have d3 : 64 - nbits ≤ 64 - 8 + o + i := by omega
    have d5 : i - (8 - o - bits) < bits := by omega
    have hidx : 64 - 8 + o + i - (64 - nbits) =
        nbits - bits + (i - (8 - o - bits)) := by omega
    simp [d1, d2, d3, hg1, d5, hidx]
  · have hsplit : i < 8 - o - bits ∨ 8 - o ≤ i := by omega
    rcases hsplit with hlow | hhigh
    · have d3f : ¬(64 - nbits ≤ 64 - 8 + o + i) := by omega
      have d4f : ¬(8 - o - bits ≤ i) := by omega
      simp [d3f, d4f]
    · have d2f : ¬(64 - 8 + o + i < 64) := by omega
      have d5f : ¬(i - (8 - o - bits) < bits) := by omega
      by_cases d1 : i < 8 <;> simp [d1, d2f, d5f]

/-- One `write` loop iteration, abstractly: the updated staging byte keeps
the invariant and its populated top bits grow by the next `bits` bits of the
`nbits`-bit field of `data`. -/
theorem write_step (B data nbits o : Nat) (hB : B < 256) (hBz : B % 2 ^ (8 - o) = 0)
    (ho : o < 8) (hn : 0 < nbits) (hn64 : nbits ≤ 64) :
    (B ||| (((data <<< (64 - nbits)) % 2 ^ 64) >>> (64 - 8 + o)) % 256) < 256 ∧
      (B ||| (((data <<< (64 - nbits)) % 2 ^ 64) >>> (64 - 8 + o)) % 256) %
        2 ^ (8 - (o + min (8 - o) nbits)) = 0 ∧
      natBits ((B ||| (((data <<< (64 - nbits)) % 2 ^ 64) >>> (64 - 8 + o)) % 256) >>>
          (8 - (o + min (8 - o) nbits))) (o + min (8 - o) nbits) =
        natBits (B >>> (8 - o)) o ++
          natBits (data >>> (nbits - min (8 - o) nbits)) (min (8 - o) nbits) := by
  have hb1 : min (8 - o) nbits ≤ 8 - o := Nat.min_le_left _ _
  have hb2 : min (8 - o) nbits ≤ nbits := Nat.min_le_right _ _
  rw [write_chunk_ex data nbits o ho hn hn64]
  set bits := min (8 - o) nbits with hbits
  set T := (data >>> (nbits - bits)) % 2 ^ bits with hT
  set s := 8 - o - bits with hs
  have hTlt : T < 2 ^ bits := Nat.mod_lt _ (Nat.pos_pow_of_pos bits (by omega))
  have hsb : s + bits = 8 - o := by omega
  have h8s : 8 - (o + bits) = s := by omega
  have hTs : T <<< s < 2 ^ 8 := by
    apply shiftLeft_lt T s 8 _ (by omega)
    exact lt_of_lt_of_le hTlt (Nat.pow_le_pow_right (by omega) (by omega))
  constructor
  · rw [show (256 : Nat) = 2 ^ 8 by norm_num] at hB ⊢
    exact Nat.or_lt_two_pow hB hTs
  constructor
  · rw [h8s, mod_two_pow_or_distrib, shiftLeft_mod_self,
      mod_pow_zero_of_le hBz (by omega), Nat.zero_or]
  · rw [h8s]
    have hor : (B ||| T <<< s) >>> s = (B >>> s) ||| T := by
      rw [shiftRight_or_distrib, shiftLeft_shiftRight_self]
    rw [hor, natBits_split ((B >>> s) ||| T) o bits]
    congr 1
    · congr 1
      rw [shiftRight_or_distrib, ← Nat.shiftRight_add, hsb,
        shiftRight_eq_zero T bits hTlt, Nat.or_zero]
    · have hlow : natBits ((B >>> s) ||| T) bits = natBits T bits := by
        refine natBits_congr bits fun i hi => ?_
        rw [Nat.testBit_or]
        have hBfalse : (B >>> s).testBit i = false := by
          rw [Nat.testBit_shiftRight]
          exact testBit_eq_false_of_mod_eq_zero hBz (by omega)
        rw [hBfalse, Bool.false_or]
      rw [hlow, hT, natBits_mod_two_pow]

/-- `writeLoop` appends exactly the low `nbits` bits of `data` (MSB first) to
the bit stream and preserves the writer invariant. -/
theorem writeLoop_spec (w : BitStreamWriter) (data nbits wrote : Nat) :
    WInv w → nbits ≤ 64 →
    ∃ w' k, writeLoop w data nbits wrote = (w', k) ∧ WInv w' ∧
      wBits w' = wBits w ++ natBits data nbits := by
  induction w, data, nbits, wrote using writeLoop.induct with
  | case1 w data wrote =>
    intro hw _
    exact ⟨w, wrote, by rw [writeLoop]; simp, hw, by simp [natBits]⟩
  | case2 w data nbits wrote h0 h8 ih =>
    intro hw hn64
    obtain ⟨hB, hBz, hbytes⟩ := hw
    obtain ⟨hbuf, hbufz, hgrow⟩ :=
      write_step w.buffer data nbits w.offset hB hBz w.hoff (by omega) hn64
    have hmin1 : min (8 - w.offset) nbits ≤ 8 - w.offset := Nat.min_le_left _ _
    have hmin2 : min (8 - w.offset) nbits ≤ nbits := Nat.min_le_right _ _
    have hinv1 : WInv
        ⟨w.bytes ++
            [w.buffer ||| (((data <<< (64 - nbits)) % 2 ^ 64) >>> (64 - 8 + w.offset)) % 256],
          0, 0, by omega⟩ := by
      refine ⟨by norm_num, by norm_num, fun b hb => ?_⟩
      rcases List.mem_append.1 hb with hb | hb
      · exact hbytes b hb
      · rw [List.mem_singleton] at hb
        subst hb
        exact hbuf
    obtain ⟨w', k, heq, hinv', hbits'⟩ := ih hinv1 (by omega)
    refine ⟨w', k, ?_, hinv', ?_⟩
    · rw [writeLoop, dif_neg h0, dif_pos h8]
      exact heq
    · rw [hbits']
      rw [h8, Nat.sub_self, Nat.shiftRight_zero] at hgrow
      simp only [wBits, bytesBits_append, bytesBits, byteBits, List.append_nil,
        Nat.sub_zero, Nat.zero_shiftRight, natBits_zero]
      rw [hgrow]
      simp only [List.append_assoc]
      congr 2
      rw [← natBits_split data (min (8 - w.offset) nbits) (nbits - min (8 - w.offset) nbits)]
      congr 1
      omega
  | case3 w data nbits wrote h0 h8 ih =>
    intro hw hn64
    obtain ⟨hB, hBz, hbytes⟩ := hw
    obtain ⟨hbuf, hbufz, hgrow⟩ :=
      write_step w.buffer data nbits w.offset hB hBz w.hoff (by omega) hn64
    have hmin1 : min (8 - w.offset) nbits ≤ 8 - w.offset := Nat.min_le_left _ _
    have hmin2 : min (8 - w.offset) nbits ≤ nbits := Nat.min_le_right _ _
    have hoff2 : w.offset + min (8 - w.offset) nbits < 8 := by
      have := w.hoff
      omega
    have hinv1 : WInv
        ⟨w.bytes, w.buffer ||| (((data <<< (64 - nbits)) % 2 ^ 64) >>> (64 - 8 + w.offset)) % 256,
          w.offset + min (8 - w.offset) nbits, hoff2⟩ := ⟨hbuf, hbufz, hbytes⟩
    obtain ⟨w', k, heq, hinv', hbits'⟩ := ih hinv1 (by omega)
    refine ⟨w', k, ?_, hinv', ?_⟩
    · rw [writeLoop, dif_neg h0, dif_neg h8]
      exact heq
    · rw [hbits']
      simp only [wBits]
      rw [hgrow]
      simp only [List.append_assoc]
      congr 2
      rw [← natBits_split data (min (8 - w.offset) nbits) (nbits - min (8 - w.offset) nbits)]
      congr 1
      omega

theorem natBits_of_zero (n : Nat) : natBits 0 n = List.replicate n false := by
  induction n with
  | zero => rfl
  | succ k ih => simp [natBits, List.replicate_succ, ih, Nat.zero_testBit]

theorem natBits_eq_replicate_of_mod {x n : Nat} (h : x % 2 ^ n = 0) :
    natBits x n = List.replicate n false := by
  rw [← natBits_mod_two_pow, h, natBits_of_zero]

/-- `flush` pads the partially filled byte with low zero bits and pushes it;
afterwards the sink bytes denote the written stream plus that padding. -/
theorem flush_spec (w : BitStreamWriter) (hw : WInv w) :
    WInv (w.flush).1 ∧ (w.flush).1.offset = 0 ∧
      bytesBits (w.flush).1.bytes = wBits w ++ List.replicate ((8 - w.offset) % 8) false ∧
      (∀ b ∈ (w.flush).1.bytes, b < 256) := by
  obtain ⟨hB, hBz, hbytes⟩ := hw
  unfold BitStreamWriter.flush
  by_cases ho : w.offset > 0
  · rw [if_pos ho]
    have hmod : (8 - w.offset) % 8 = 8 - w.offset := by
      have := w.hoff
      apply Nat.mod_eq_of_lt
      omega
    have hsplitb : natBits w.buffer 8 =
        natBits (w.buffer >>> (8 - w.offset)) w.offset ++ natBits w.buffer (8 - w.offset) := by
      have h8 : (8 : Nat) = w.offset + (8 - w.offset) := by
        have := w.hoff
        omega
      conv_lhs => rw [h8]
      exact natBits_split w.buffer w.offset (8 - w.offset)
    refine ⟨⟨by norm_num, by norm_num, fun b hb => ?_⟩, rfl, ?_, fun b hb => ?_⟩
    · rcases List.mem_append.1 hb with hb | hb
      · exact hbytes b hb
      · rw [List.mem_singleton] at hb
        subst hb
        exact hB
    · show bytesBits (w.bytes ++ [w.buffer]) = _
      rw [bytesBits_append, hmod]
      simp only [bytesBits, byteBits, List.append_nil, wBits, List.append_assoc]
      rw [hsplitb, natBits_eq_replicate_of_mod hBz]
    · rcases List.mem_append.1 hb with hb | hb
      · exact hbytes b hb
      · rw [List.mem_singleton] at hb
        subst hb
        exact hB
  · rw [if_neg ho]
    have ho0 : w.offset = 0 := by omega
    refine ⟨⟨hB, hBz, hbytes⟩, ho0, ?_, hbytes⟩
    simp [wBits, ho0, natBits_zero]

/-- `BitStreamWriter.write` for a legal width: appends the low `nbits` bits. -/
theorem write_spec (w : BitStreamWriter) (data nbits : Nat) (hw : WInv w) (hn : nbits ≤ 64) :
    ∃ w' k, w.write data nbits = .ok (w', k) ∧ WInv w' ∧
      wBits w' = wBits w ++ natBits data nbits := by
  obtain ⟨w', k, heq, hinv, hbits⟩ := writeLoop_spec w data nbits 0 hw hn
  exact ⟨w', k, by rw [BitStreamWriter.write, if_neg (by omega), heq], hinv, hbits⟩

/-! ### Reader correctness -/

/-- Bits remaining ahead of a reader state, as a plain measure. -/
def bitsRem (r : BitStreamReader) : Nat := 8 * r.input.length + (8 - r.offset)

theorem rBits_length (r : BitStreamReader) :
    (rBits r).length = bitsRem r := by
  rcases r with ⟨input, buffer, offset, hoff⟩
  simp only [rBits, bitsRem, List.length_append, natBits_length]
  have : ∀ l : List Nat, (bytesBits l).length = 8 * l.length := by
    intro l
    induction l with
    | nil => simp [bytesBits]
    | cons b t ih => simp [bytesBits, byteBits, natBits_length, ih]; omega
  rw [this]
  omega

/-- A successful `readLoop` consumes exactly `nbits` bits of the stream. -/
theorem readLoop_measure (r : BitStreamReader) (nbits data v : Nat) (r' : BitStreamReader) :
    readLoop r nbits data = .ok (v, r') → bitsRem r' + nbits = bitsRem r := by
  induction r, nbits, data using readLoop.induct with
  | case1 r data =>
    intro h
    rw [readLoop] at h
    simp at h
    obtain ⟨h1, h2⟩ := h
    subst h2
    omega
  | case2 r nbits data h0 h8 hnil =>
    intro h
    rw [readLoop, dif_neg h0, dif_pos h8] at h
    rw [hnil] at h
    cases h
  | case3 r nbits data h0 h8 b bs hcons ih =>
    intro h
    rw [readLoop, dif_neg h0, dif_pos h8, hcons] at h
    have := ih h
    rcases r with ⟨input, buffer, offset, hoff⟩
    simp only [bitsRem] at this ⊢
    simp only at h8 hcons
    subst h8
    rw [hcons]
    simp at this ⊢
    omega
  | case4 r nbits data h0 h8 ih =>
    intro h
    rw [readLoop, dif_neg h0, dif_neg h8] at h
    have := ih h
    have hmin1 : min (8 - r.offset) nbits ≤ 8 - r.offset := Nat.min_le_left _ _
    have hmin2 : min (8 - r.offset) nbits ≤ nbits := Nat.min_le_right _ _
    have h1 : 1 ≤ min (8 - r.offset) nbits := by
      have := r.hoff
      omega
    simp only [bitsRem] at this ⊢
    omega

/-- The byte-local picture of one `read` loop iteration: the or-ed in chunk
is the next `bits` unconsumed bits of the staging byte. -/
theorem read_chunk_val (B o bits : Nat) (hB : B < 256) (ho : o < 8) (hbits : 0 < bits)
    (hob : o + bits ≤ 8) :
    ((B <<< o) % 256) >>> (8 - bits) = (B >>> (8 - o - bits)) % 2 ^ bits := by
  apply Nat.eq_of_testBit_eq
  intro i
  rw [show (256 : Nat) = 2 ^ 8 by norm_num]
  simp only [Nat.testBit_mod_two_pow, Nat.testBit_shiftRight, Nat.testBit_shiftLeft,
    ge_iff_le]
  by_cases hi : i < bits
  · have d1 : 8 - bits + i < 8 := by omega
    have d2 : o ≤ 8 - bits + i := by omega
    have hidx : 8 - bits + i - o = 8 - o - bits + i := by omega
    simp [d1, d2, hidx, hi]
  · have d1 : ¬(8 - bits + i < 8) := by omega
    simp [d1, hi]

/-- A successful `readLoop` returns the bits it consumed, MSB first, appended
below the accumulator. -/
theorem readLoop_ok (r : BitStreamReader) (nbits data : Nat) :
    ∀ pre rest : List Bool, RInv r → data < 2 ^ (64 - nbits) → nbits ≤ 64 →
    rBits r = pre ++ rest → pre.length = nbits →
    ∃ r', readLoop r nbits data = .ok (data * 2 ^ nbits + bitsToNat pre, r') ∧
      RInv r' ∧ rBits r' = rest := by
  induction r, nbits, data using readLoop.induct with
  | case1 r data =>
    intro pre rest hr hd _ hsplit hlen
    have hpre : pre = [] := List.eq_nil_of_length_eq_zero hlen
    subst hpre
    refine ⟨r, ?_, hr, by simpa using hsplit⟩
    rw [readLoop]
    simp [bitsToNat]
  | case2 r nbits data h0 h8 hnil =>
    intro pre rest hr hd hn64 hsplit hlen
    exfalso
    have hlen0 : (rBits r).length = 0 := by
      rw [rBits, h8, hnil]
      simp [bytesBits, natBits_zero]
    rw [hsplit, List.length_append] at hlen0
    omega
  | case3 r nbits data h0 h8 b bs hcons ih =>
    intro pre rest hr hd hn64 hsplit hlen
    have hrb : rBits r = natBits b 8 ++ bytesBits bs := by
      rw [rBits, h8, hcons]
      simp [bytesBits, byteBits, natBits_zero]
    have hr1 : RInv ⟨bs, b, 0, by omega⟩ := by
      refine ⟨hr.2 b (by rw [hcons]; exact List.mem_cons_self ..), fun x hx => ?_⟩
      exact hr.2 x (by rw [hcons]; exact List.mem_cons_of_mem _ hx)
    have hrb1 : rBits ⟨bs, b, 0, by omega⟩ = pre ++ rest := by
      rw [rBits]
      simp only [Nat.sub_zero]
      show natBits b 8 ++ bytesBits bs = _
      rw [← hrb]
      exact hsplit
    obtain ⟨r', heq, hrinv', hrb'⟩ := ih pre rest hr1 hd hn64 hrb1 hlen
    refine ⟨r', ?_, hrinv', hrb'⟩
    rw [readLoop, dif_neg h0, dif_pos h8, hcons]
    exact heq
  | case4 r nbits data h0 h8 ih =>
    intro pre rest hr hd hn64 hsplit hlen
    have hofflt : r.offset < 8 := by
      have := r.hoff
      omega
    have hmin1 : min (8 - r.offset) nbits ≤ 8 - r.offset := Nat.min_le_left _ _
    have hmin2 : min (8 - r.offset) nbits ≤ nbits := Nat.min_le_right _ _
    have hbits1 : 1 ≤ min (8 - r.offset) nbits := by omega
    -- decompose the staging byte bits into the chunk and the leftover
    have hsplitB : natBits r.buffer (8 - r.offset) =
        natBits (r.buffer >>> (8 - r.offset - min (8 - r.offset) nbits))
            (min (8 - r.offset) nbits) ++
          natBits r.buffer (8 - r.offset - min (8 - r.offset) nbits) := by
      have he : 8 - r.offset =
          min (8 - r.offset) nbits + (8 - r.offset - min (8 - r.offset) nbits) := by omega
      conv_lhs => rw [he]
      exact natBits_split _ _ _
    -- the chunk pre1 read this iteration
    have hchunkval : ((r.buffer <<< r.offset) % 256) >>> (8 - min (8 - r.offset) nbits) =
        (r.buffer >>> (8 - r.offset - min (8 - r.offset) nbits)) %
          2 ^ min (8 - r.offset) nbits :=
      read_chunk_val r.buffer r.offset (min (8 - r.offset) nbits) hr.1 hofflt hbits1
        (by omega)
    -- split pre into the chunk and the remainder
    have hlenchunk : (natBits (r.buffer >>> (8 - r.offset - min (8 - r.offset) nbits))
        (min (8 - r.offset) nbits)).length = min (8 - r.offset) nbits := natBits_length ..
    have hstream : natBits (r.buffer >>> (8 - r.offset - min (8 - r.offset) nbits))
          (min (8 - r.offset) nbits) ++
        (natBits r.buffer (8 - r.offset - min (8 - r.offset) nbits) ++ bytesBits r.input) =
        pre ++ rest := by
      rw [← List.append_assoc, ← hsplitB]
      rw [← hsplit, rBits]
    have hpre2 : ∃ pre2 : List Bool,
        pre = natBits (r.buffer >>> (8 - r.offset - min (8 - r.offset) nbits))
            (min (8 - r.offset) nbits) ++ pre2 ∧
          natBits r.buffer (8 - r.offset - min (8 - r.offset) nbits) ++ bytesBits r.input =
            pre2 ++ rest := by
      rcases List.append_eq_append_iff.1 hstream with ⟨t, ht1, ht2⟩ | ⟨t, ht1, ht2⟩
      · exact ⟨t, ht1, ht2⟩
      · refine ⟨[], ?_, ?_⟩
        · have hlt : t.length = 0 := by
            have e1 := congrArg List.length ht1
            simp [List.length_append, hlenchunk, hlen] at e1
            omega
          have ht0 : t = [] := List.eq_nil_of_length_eq_zero hlt
          subst ht0
          simpa using ht1.symm
        · have hlt : t.length = 0 := by
            have e1 := congrArg List.length ht1
            simp [List.length_append, hlenchunk, hlen] at e1
            omega
          have ht0 : t = [] := List.eq_nil_of_length_eq_zero hlt
          subst ht0
          simpa using ht2.symm
    obtain ⟨pre2, hpeq, htail⟩ := hpre2
    have hlen2 : pre2.length = nbits - min (8 - r.offset) nbits := by
      have e1 := congrArg List.length hpeq
      simp [List.length_append, hlenchunk, hlen] at e1
      omega
    -- the new accumulator
    have hshift : (data <<< min (8 - r.offset) nbits) % 2 ^ 64 =
        data * 2 ^ min (8 - r.offset) nbits := by
      rw [Nat.shiftLeft_eq_mul_pow]
      apply Nat.mod_eq_of_lt
      calc data * 2 ^ min (8 - r.offset) nbits
          < 2 ^ (64 - nbits) * 2 ^ min (8 - r.offset) nbits := by
            exact (Nat.mul_lt_mul_right (Nat.pos_pow_of_pos _ (by omega))).2 hd
        _ ≤ 2 ^ 64 := by
            rw [← Nat.pow_add]
            exact Nat.pow_le_pow_right (by omega) (by omega)
    have hchunklt : (r.buffer >>> (8 - r.offset - min (8 - r.offset) nbits)) %
        2 ^ min (8 - r.offset) nbits < 2 ^ min (8 - r.offset) nbits :=
      Nat.mod_lt _ (Nat.pos_pow_of_pos _ (by omega))
    have hdata2 : ((data <<< min (8 - r.offset) nbits) % 2 ^ 64) |||
        (((r.buffer <<< r.offset) % 256) >>> (8 - min (8 - r.offset) nbits)) =
        data * 2 ^ min (8 - r.offset) nbits +
          (r.buffer >>> (8 - r.offset - min (8 - r.offset) nbits)) %
            2 ^ min (8 - r.offset) nbits := by
      rw [hchunkval, hshift, ← Nat.shiftLeft_eq_mul_pow]
      exact shiftLeft_or_eq_add _ _ _ hchunklt
    -- invariant and stream for the new state
    have hr1 : RInv ⟨r.input, r.buffer, r.offset + min (8 - r.offset) nbits, by omega⟩ :=
      ⟨hr.1, hr.2⟩
    have hrb1 : rBits ⟨r.input, r.buffer, r.offset + min (8 - r.offset) nbits, by omega⟩ =
        pre2 ++ rest := by
      rw [rBits]
      show natBits r.buffer (8 - (r.offset + min (8 - r.offset) nbits)) ++ _ = _
      rw [show 8 - (r.offset + min (8 - r.offset) nbits) =
        8 - r.offset - min (8 - r.offset) nbits by omega]
      exact htail
    have hd2 : data * 2 ^ min (8 - r.offset) nbits +
        (r.buffer >>> (8 - r.offset - min (8 - r.offset) nbits)) %
          2 ^ min (8 - r.offset) nbits <
        2 ^ (64 - (nbits - min (8 - r.offset) nbits)) := by
      have e1 : 64 - (nbits - min (8 - r.offset) nbits) =
          (64 - nbits) + min (8 - r.offset) nbits := by omega
      rw [e1, Nat.pow_add]
      calc data * 2 ^ min (8 - r.offset) nbits +
            (r.buffer >>> (8 - r.offset - min (8 - r.offset) nbits)) %
              2 ^ min (8 - r.offset) nbits
          < (data + 1) * 2 ^ min (8 - r.offset) nbits := by
            rw [Nat.add_mul, Nat.one_mul]
            omega
        _ ≤ 2 ^ (64 - nbits) * 2 ^ min (8 - r.offset) nbits := by
            exact Nat.mul_le_mul_right _ (by omega)
    obtain ⟨r', heq, hrinv', hrb'⟩ := ih pre2 rest hr1 (by
        rw [hdata2]
        exact hd2) (by omega) (by rw [← hrb1]) hlen2
    refine ⟨r', ?_, hrinv', hrb'⟩
    rw [readLoop, dif_neg h0, dif_neg h8]
    rw [heq]
    congr 2
    rw [hdata2, hpeq, bitsToNat_append, bitsToNat_natBits, hlen2]
    have e2 : 2 ^ nbits = 2 ^ min (8 - r.offset) nbits * 2 ^ (nbits - min (8 - r.offset) nbits) := by
      rw [← Nat.pow_add]
      congr 1
      omega
    rw [e2]
    ring

/-- `readLoop` hits the end of the source when more bits are requested than
remain in the stream. -/
theorem readLoop_err (r : BitStreamReader) (nbits data : Nat) :
    (rBits r).length < nbits →
    readLoop r nbits data = .error .unexpectedEof := by
  induction r, nbits, data using readLoop.induct with
  | case1 r data =>
    intro h
    omega
  | case2 r nbits data h0 h8 hnil =>
    intro h
    rw [readLoop, dif_neg h0, dif_pos h8, hnil]
  | case3 r nbits data h0 h8 b bs hcons ih =>
    intro h
    rw [readLoop, dif_neg h0, dif_pos h8, hcons]
    apply ih
    have hrb : rBits r = natBits b 8 ++ bytesBits bs := by
      rw [rBits, h8, hcons]
      simp [bytesBits, byteBits, natBits_zero]
    have hrb1 : (rBits ⟨bs, b, 0, by omega⟩).length = (rBits r).length := by
      rw [hrb, rBits]
      simp only [Nat.sub_zero, List.length_append, natBits_length]
    omega
  | case4 r nbits data h0 h8 ih =>
    intro h
    rw [readLoop, dif_neg h0, dif_neg h8]
    apply ih
    have hmin1 : min (8 - r.offset) nbits ≤ 8 - r.offset := Nat.min_le_left _ _
    have hmin2 : min (8 - r.offset) nbits ≤ nbits := Nat.min_le_right _ _
    rw [rBits_length] at h ⊢
    simp only [bitsRem] at h ⊢
    omega

/-- `BitStreamReader.read` for a legal width and a sufficient stream. -/
theorem read_ok (r : BitStreamReader) (nbits : Nat) (pre rest : List Bool) (hr : RInv r)
    (hn : nbits ≤ 64) (hsplit : rBits r = pre ++ rest) (hlen : pre.length = nbits) :
    ∃ r', r.read nbits = .ok (bitsToNat pre, r') ∧ RInv r' ∧ rBits r' = rest := by
  obtain ⟨r', heq, hrinv, hrb⟩ := readLoop_ok r nbits 0 pre rest hr
    (Nat.pos_pow_of_pos _ (by omega)) hn hsplit hlen
  refine ⟨r', ?_, hrinv, hrb⟩
  rw [BitStreamReader.read, if_neg (by omega), heq]
  simp

/-- `BitStreamReader.read` fails with the end-of-stream error when the stream
is too short (for a legal width). -/
theorem read_err (r : BitStreamReader) (nbits : Nat) (hn : nbits ≤ 64)
    (hshort : (rBits r).length < nbits) :
    r.read nbits = .error .unexpectedEof := by
  rw [BitStreamReader.read, if_neg (by omega)]
  exact readLoop_err r nbits 0 hshort

/-! ### Claim C4: bitstream write/read round trip -/

/-- Write a sequence of `(value, nbits)` pairs in order with
`BitStreamWriter::write`. -/
def writeSeq (w : BitStreamWriter) : List (Nat × Nat) → Except IOError BitStreamWriter
  | [] => .ok w
  | (v, n) :: ps =>
    match w.write v n with
    | .error e => .error e
    | .ok (w1, _) => writeSeq w1 ps

/-- Read back a sequence of widths in order with `BitStreamReader::read`,
collecting the values. -/
def readSeq (r : BitStreamReader) : List Nat → Except IOError (List Nat × BitStreamReader)
  | [] => .ok ([], r)
  | n :: ns =>
    match r.read n with
    | .error e => .error e
    | .ok (v, r1) =>
      match readSeq r1 ns with
      | .error e => .error e
      | .ok (vs, r2) => .ok (v :: vs, r2)

/-- The bit stream a sequence of writes denotes. -/
def seqBits : List (Nat × Nat) → List Bool
  | [] => []
  | (v, n) :: ps => natBits v n ++ seqBits ps

theorem writeSeq_spec (ps : List (Nat × Nat)) (w : BitStreamWriter) (hw : WInv w)
    (hps : ∀ p ∈ ps, p.2 ≤ 64) :
    ∃ w', writeSeq w ps = .ok w' ∧ WInv w' ∧ wBits w' = wBits w ++ seqBits ps := by
  induction ps generalizing w with
  | nil => exact ⟨w, rfl, hw, by simp [seqBits]⟩
  | cons p ps ih =>
    obtain ⟨v, n⟩ := p
    obtain ⟨w1, k, heq, hinv1, hbits1⟩ := write_spec w v n hw (hps (v, n) (by simp))
    obtain ⟨w', heq', hinv', hbits'⟩ := ih w1 hinv1 (fun q hq => hps q (by simp [hq]))
    refine ⟨w', ?_, hinv', ?_⟩
    · rw [writeSeq, heq]
      exact heq'
    · rw [hbits', hbits1, seqBits, List.append_assoc]

theorem readSeq_spec (ps : List (Nat × Nat)) (r : BitStreamReader) (rest : List Bool)
    (hr : RInv r) (hps : ∀ p ∈ ps, p.2 ≤ 64 ∧ p.1 < 2 ^ p.2)
    (hsplit : rBits r = seqBits ps ++ rest) :
    ∃ r', readSeq r (ps.map Prod.snd) = .ok (ps.map Prod.fst, r') ∧
      RInv r' ∧ rBits r' = rest := by
  induction ps generalizing r with
  | nil => exact ⟨r, rfl, hr, by simpa [seqBits] using hsplit⟩
  | cons p ps ih =>
    obtain ⟨v, n⟩ := p
    obtain ⟨hn64, hvlt⟩ := hps (v, n) (by simp)
    have hsplit1 : rBits r = natBits v n ++ (seqBits ps ++ rest) := by
      rw [hsplit, seqBits, List.append_assoc]
    obtain ⟨r1, heq1, hr1, hrb1⟩ := read_ok r n (natBits v n) (seqBits ps ++ rest) hr hn64
      hsplit1 (natBits_length v n)
    obtain ⟨r', heq', hr', hrb'⟩ := ih r1 hr1 (fun q hq => hps q (by simp [hq]))
      hrb1
    refine ⟨r', ?_, hr', hrb'⟩
    rw [List.map_cons, readSeq, heq1]
    dsimp only
    rw [heq']
    dsimp only [List.map_cons]
    congr 3
    rw [bitsToNat_natBits, Nat.mod_eq_of_lt hvlt]

/-- Round-trip harness for claim C4: write the pairs, flush, read the widths
back, and return the values. -/
def roundTripValues (ps : List (Nat × Nat)) (widths : List Nat) :
    Except IOError (List Nat) :=
  match writeSeq BitStreamWriter.new ps with
  | .error e => .error e
  | .ok w =>
    match readSeq (BitStreamReader.new (w.flush).1.bytes) widths with
    | .error e => .error e
    | .ok (vs, _) => .ok vs

/-- Claim C4, counterexample: the claim as stated has no fit requirement on
the values; writing value `2` with width 1 stores only its low bit, and
reading 1 bit back yields `0`, not the original `2`. -/
theorem C4_counterexample :
    roundTripValues [(2, 1)] [1] = .ok [0] ∧ roundTripValues [(2, 1)] [1] ≠ .ok [2] := by
  have h : roundTripValues [(2, 1)] [1] = .ok [0] := by
    simp [roundTripValues, writeSeq, readSeq, BitStreamWriter.write, BitStreamReader.read,
      writeLoop, readLoop, BitStreamWriter.new, BitStreamReader.new, BitStreamWriter.flush]
  refine ⟨h, ?_⟩
  rw [h]
  intro hc
  exact absurd (Except.ok.inj hc) (by decide)

/-- Claim C4 (amended): for every sequence of `(value, nbits)` pairs with
`nbits ∈ [1, 64]` and `value < 2 ^ nbits` (write stores only the low `nbits`
bits, so values must fit), writing them in order, flushing, and reading back
with the same widths yields the original values exactly; afterwards any read
requesting more bits than remain in the zero-padded final byte fails with an
error. -/
theorem C4_bitstream_roundtrip (ps : List (Nat × Nat))
    (hps : ∀ p ∈ ps, 1 ≤ p.2 ∧ p.2 ≤ 64 ∧ p.1 < 2 ^ p.2) :
    ∃ w, writeSeq BitStreamWriter.new ps = .ok w ∧
      ∃ r', readSeq (BitStreamReader.new (w.flush).1.bytes) (ps.map Prod.snd) =
          .ok (ps.map Prod.fst, r') ∧
        ∀ m, (rBits r').length < m → ∃ e, r'.read m = .error e := by
  obtain ⟨w, heqw, hinvw, hbitsw⟩ :=
    writeSeq_spec ps BitStreamWriter.new WInv_new (fun p hp => (hps p hp).2.1)
  obtain ⟨hinvf, hofff, hbytesf, hbf⟩ := flush_spec w hinvw
  refine ⟨w, heqw, ?_⟩
  have hrinv : RInv (BitStreamReader.new (w.flush).1.bytes) :=
    RInv_new _ hbf
  have hrb : rBits (BitStreamReader.new (w.flush).1.bytes) =
      seqBits ps ++ List.replicate ((8 - w.offset) % 8) false := by
    rw [rBits_new, hbytesf, hbitsw, wBits_new]
    simp
  obtain ⟨r', heqr, hrinv', hrb'⟩ := readSeq_spec ps _ _ hrinv
    (fun p hp => ⟨(hps p hp).2.1, (hps p hp).2.2⟩) hrb
  refine ⟨r', heqr, fun m hm => ?_⟩
  by_cases hm64 : m ≤ 64
  · exact ⟨.unexpectedEof, read_err r' m hm64 hm⟩
  · refine ⟨.invalidInput, ?_⟩
    rw [BitStreamReader.read, if_pos (by omega)]

/-- Claim C4 witness: the round-trip theorem applied to the write sequence of
the source's own bit stream unit test. -/
theorem C4_bitstream_roundtrip_witness :
    (∀ p ∈ [(0, 1), (2, 2), (6, 3), (11, 4), (1, 5), (32, 6), (7, 7)],
        1 ≤ (p : Nat × Nat).2 ∧ p.2 ≤ 64 ∧ p.1 < 2 ^ p.2) ∧
      (∃ w, writeSeq BitStreamWriter.new
            [(0, 1), (2, 2), (6, 3), (11, 4), (1, 5), (32, 6), (7, 7)] = .ok w ∧
          ∃ r', readSeq (BitStreamReader.new (w.flush).1.bytes)
              ([(0, 1), (2, 2), (6, 3), (11, 4), (1, 5), (32, 6), (7, 7)].map Prod.snd) =
              .ok ([(0, 1), (2, 2), (6, 3), (11, 4), (1, 5), (32, 6), (7, 7)].map Prod.fst,
                r') ∧
            ∀ m, (rBits r').length < m → ∃ e, r'.read m = .error e) :=
  ⟨by decide, C4_bitstream_roundtrip _ (by decide)⟩

/-! ### Golomb–Rice codec (src/golomb/mod.rs) -/

/-- Golomb encoding parameter as in BIP-158 (source constant `P_BIP158`). -/
def P_BIP158 : Nat := 19

/-- False-positive scaling constant as in BIP-158 (source constant `M_BIP158`). -/
def M_BIP158 : Nat := 784931

/-- The Golomb Coded Set filter: two sip keys and the Rice parameter.
The source constructor panics on `p == 0`; no operation below is specified
at `p = 0` and the claims carry `0 < p`. -/
structure GCSFilter where
  k0 : Nat
  k1 : Nat
  p : Nat

/-- The unary-quotient loop of `golomb_rice_encode`: write `q` one-bits in
chunks of at most 64 (`!0u64` is `2 ^ 64 - 1`). -/
def encUnary (w : BitStreamWriter) (q wrote : Nat) : Except IOError (BitStreamWriter × Nat) :=
  if q = 0 then .ok (w, wrote)
  else
    match w.write (2 ^ 64 - 1) (min q 64) with
    | .error e => .error e
    | .ok (w1, k) => encUnary w1 (q - min q 64) (wrote + k)
termination_by q
decreasing_by
  have h1 : 1 ≤ min q 64 := by omega
  omega

/-- Embedding of `GCSFilter::golomb_rice_encode`: unary quotient `n >> p`,
a terminating 0 bit, then the low `p` bits of `n`. -/
def GCSFilter.golomb_rice_encode (f : GCSFilter) (writer : BitStreamWriter) (n : Nat) :
    Except IOError (BitStreamWriter × Nat) :=
  match encUnary writer (n >>> f.p) 0 with
  | .error e => .error e
  | .ok (w1, wrote) =>
    match w1.write 0 1 with
    | .error e => .error e
    | .ok (w2, k1) =>
      match w2.write n f.p with
      | .error e => .error e
      | .ok (w3, k2) => .ok (w3, wrote + k1 + k2)

/-- The unary-quotient loop of `golomb_rice_decode`: count 1-bits until a
0 bit; the counter is a `u64`. -/
def decUnaryLoop (r : BitStreamReader) (q : Nat) : Except IOError (Nat × BitStreamReader) :=
  match h : r.read 1 with
  | .error e => .error e
  | .ok (v, r1) =>
    if v = 1 then decUnaryLoop r1 ((q + 1) % 2 ^ 64) else .ok (q, r1)
termination_by bitsRem r
decreasing_by
  have h2 : readLoop r 1 0 = .ok (v, r1) := by
    rw [BitStreamReader.read, if_neg (by omega)] at h
    exact h
  have h3 := readLoop_measure r 1 0 v r1 h2
  omega

/-- Embedding of `GCSFilter::golomb_rice_decode`: unary quotient, then read
the `p`-bit remainder; returns `(q << p) + r` in `u64` arithmetic. -/
def GCSFilter.golomb_rice_decode (f : GCSFilter) (reader : BitStreamReader) :
    Except IOError (Nat × BitStreamReader) :=
  match decUnaryLoop reader 0 with
  | .error e => .error e
  | .ok (q, r1) =>
    match r1.read f.p with
    | .error e => .error e
    | .ok (rem, r2) => .ok (((q <<< f.p) % 2 ^ 64 + rem) % 2 ^ 64, r2)

/-- The bit stream of one Golomb–Rice codeword. -/
def encBits (p n : Nat) : List Bool :=
  List.replicate (n >>> p) true ++ false :: natBits n p

theorem natBits_all_ones (n : Nat) (hn : n ≤ 64) :
    natBits (2 ^ 64 - 1) n = List.replicate n true := by
  induction n with
  | zero => rfl
  | succ k ih =>
    rw [natBits, List.replicate_succ, ih (by omega)]
    congr 1
    rw [Nat.testBit_two_pow_sub_one]
    simp
    omega

theorem encUnary_spec (w : BitStreamWriter) (q wrote : Nat) :
    WInv w → ∃ w' k, encUnary w q wrote = .ok (w', k) ∧ WInv w' ∧
      wBits w' = wBits w ++ List.replicate q true := by
  induction w, q, wrote using encUnary.induct with
  | case1 w wrote =>
    intro hw
    exact ⟨w, wrote, by rw [encUnary]; simp, hw, by simp⟩
  | case2 w q wrote hq e heq =>
    intro hw
    exfalso
    obtain ⟨w1, k, heq1, _, _⟩ := write_spec w (2 ^ 64 - 1) (min q 64) hw (by omega)
    rw [heq1] at heq
    cases heq
  | case3 w q wrote hq w1 k heq ih =>
    intro hw
    obtain ⟨w1', k', heq1, hinv1, hbits1⟩ := write_spec w (2 ^ 64 - 1) (min q 64) hw (by omega)
    rw [heq1] at heq
    have hee := Except.ok.inj heq
    have he1 : w1' = w1 := congrArg Prod.fst hee
    have he2 : k' = k := congrArg Prod.snd hee
    subst he1
    subst he2
    obtain ⟨w', kk, heq', hinv', hbits'⟩ := ih hinv1
    refine ⟨w', kk, ?_, hinv', ?_⟩
    · rw [encUnary, if_neg hq, heq1]
      exact heq'
    · rw [hbits', hbits1, natBits_all_ones (min q 64) (by omega),
        List.append_assoc, ← List.replicate_add]
      congr 2
      omega

/-- A Golomb–Rice encode appends exactly the codeword `encBits p n`. -/
theorem golomb_rice_encode_spec (f : GCSFilter) (w : BitStreamWriter) (n : Nat)
    (hw : WInv w) (hp : f.p ≤ 64) :
    ∃ w' k, f.golomb_rice_encode w n = .ok (w', k) ∧ WInv w' ∧
      wBits w' = wBits w ++ encBits f.p n := by
  obtain ⟨w1, k1, heq1, hinv1, hbits1⟩ := encUnary_spec w (n >>> f.p) 0 hw
  obtain ⟨w2, k2, heq2, hinv2, hbits2⟩ := write_spec w1 0 1 hinv1 (by omega)
  obtain ⟨w3, k3, heq3, hinv3, hbits3⟩ := write_spec w2 n f.p hinv2 hp
  refine ⟨w3, k1 + k2 + k3, ?_, hinv3, ?_⟩
  · rw [GCSFilter.golomb_rice_encode, heq1]
    dsimp only
    rw [heq2]
    dsimp only
    rw [heq3]
  · rw [hbits3, hbits2, hbits1, encBits]
    have h01 : natBits 0 1 = [false] := by
      simp [natBits, Nat.zero_testBit]
    rw [h01]
    simp [List.append_assoc]

/-- With a Rice parameter wider than 64 bits, encode always fails (the final
remainder write is refused). -/
theorem golomb_rice_encode_err (f : GCSFilter) (w : BitStreamWriter) (n : Nat)
    (hw : WInv w) (hp : 64 < f.p) :
    f.golomb_rice_encode w n = .error .invalidInput := by
  obtain ⟨w1, k1, heq1, hinv1, hbits1⟩ := encUnary_spec w (n >>> f.p) 0 hw
  obtain ⟨w2, k2, heq2, hinv2, hbits2⟩ := write_spec w1 0 1 hinv1 (by omega)
  rw [GCSFilter.golomb_rice_encode, heq1]
  dsimp only
  rw [heq2]
  dsimp only
  rw [BitStreamWriter.write, if_pos (by omega)]

/-- The unary decode loop consumes a run of `k` one-bits and the terminating
zero bit, adding `k` to the counter in `u64` arithmetic. -/
theorem decUnaryLoop_spec (k : Nat) (r : BitStreamReader) (q : Nat) (rest : List Bool)
    (hr : RInv r) (hq : q < 2 ^ 64)
    (hrb : rBits r = List.replicate k true ++ false :: rest) :
    ∃ r', decUnaryLoop r q = .ok ((q + k) % 2 ^ 64, r') ∧ RInv r' ∧ rBits r' = rest := by
  induction k generalizing r q with
  | zero =>
    obtain ⟨r1, heq1, hr1, hrb1⟩ := read_ok r 1 [false] rest hr (by omega)
      (by simpa using hrb) (by simp)
    refine ⟨r1, ?_, hr1, hrb1⟩
    rw [decUnaryLoop, heq1]
    have hv : bitsToNat [false] = 0 := by simp [bitsToNat]
    rw [hv]
    have he : (q + 0) % 2 ^ 64 = q := by omega
    rw [he]
    simp
  | succ m ih =>
    have hrb1 : rBits r = [true] ++ (List.replicate m true ++ false :: rest) := by
      rw [hrb, List.replicate_succ]
      simp
    obtain ⟨r1, heq1, hr1, hrb2⟩ := read_ok r 1 [true] _ hr (by omega) hrb1 (by simp)
    have hq1 : (q + 1) % 2 ^ 64 < 2 ^ 64 := Nat.mod_lt _ (by norm_num)
    obtain ⟨r', heq', hr', hrb'⟩ := ih r1 ((q + 1) % 2 ^ 64) hr1 hq1 hrb2
    refine ⟨r', ?_, hr', hrb'⟩
    rw [decUnaryLoop, heq1]
    have hv : bitsToNat [true] = 1 := by simp [bitsToNat]
    rw [hv]
    simp only [if_pos rfl]
    rw [heq']
    have he : ((q + 1) % 2 ^ 64 + m) % 2 ^ 64 = (q + (m + 1)) % 2 ^ 64 := by omega
    rw [he]
    simp

/-- Decoding a well-formed codeword of a 64-bit value recovers it exactly. -/
theorem golomb_rice_decode_spec (f : GCSFilter) (r : BitStreamReader) (n : Nat)
    (rest : List Bool) (hr : RInv r) (hp : f.p ≤ 64) (hn : n < 2 ^ 64)
    (hrb : rBits r = encBits f.p n ++ rest) :
    ∃ r', f.golomb_rice_decode r = .ok (n, r') ∧ RInv r' ∧ rBits r' = rest := by
  have hrb1 : rBits r = List.replicate (n >>> f.p) true ++ false :: (natBits n f.p ++ rest) := by
    rw [hrb, encBits]
    simp
  obtain ⟨r1, heq1, hr1, hrb2⟩ := decUnaryLoop_spec (n >>> f.p) r 0 _ hr (by norm_num) hrb1
  obtain ⟨r2, heq2, hr2, hrb3⟩ := read_ok r1 f.p (natBits n f.p) rest hr1 hp hrb2
    (natBits_length n f.p)
  refine ⟨r2, ?_, hr2, hrb3⟩
  rw [GCSFilter.golomb_rice_decode, heq1]
  dsimp only
  rw [heq2]
  dsimp only
  congr 2
  rw [bitsToNat_natBits]
  have hqlt : n >>> f.p < 2 ^ 64 := by
    have h1 : n >>> f.p ≤ n := by
      rw [Nat.shiftRight_eq_div_pow]
      exact Nat.div_le_self ..
    omega
  have hzq : (0 + n >>> f.p) % 2 ^ 64 = n >>> f.p := by
    rw [Nat.zero_add]
    exact Nat.mod_eq_of_lt hqlt
  rw [hzq]
  have hsplit : (n >>> f.p) <<< f.p + n % 2 ^ f.p = n := by
    rw [Nat.shiftRight_eq_div_pow, Nat.shiftLeft_eq_mul_pow, Nat.mul_comm]
    exact Nat.div_add_mod n (2 ^ f.p)
  have hshl : (n >>> f.p) <<< f.p % 2 ^ 64 = (n >>> f.p) <<< f.p :=
    Nat.mod_eq_of_lt (by omega)
  rw [hshl]
  omega

/-- Decoding a stream consisting entirely of 1-bits consumes it all and fails
with the end-of-stream error (inside the unary loop). -/
theorem decUnaryLoop_err_all_ones (m : Nat) (r : BitStreamReader) (q : Nat) (hr : RInv r)
    (hq : q < 2 ^ 64) (hrb : rBits r = List.replicate m true) :
    decUnaryLoop r q = .error .unexpectedEof := by
  induction m generalizing r q with
  | zero =>
    have herr : r.read 1 = .error .unexpectedEof := by
      apply read_err r 1 (by omega)
      rw [hrb]
      simp
    rw [decUnaryLoop, herr]
  | succ m ih =>
    have hrb1 : rBits r = [true] ++ List.replicate m true := by
      rw [hrb, List.replicate_succ]
      simp
    obtain ⟨r1, heq1, hr1, hrb2⟩ := read_ok r 1 [true] _ hr (by omega) hrb1 (by simp)
    rw [decUnaryLoop, heq1]
    have hv : bitsToNat [true] = 1 := by simp [bitsToNat]
    rw [hv]
    simp only [if_pos rfl]
    exact ih r1 ((q + 1) % 2 ^ 64) hr1 (Nat.mod_lt _ (by norm_num)) hrb2

/-- Claim C3: for every Rice parameter `p ∈ [1, 63]`, every `u64` value `n`
and any sip keys, Golomb–Rice encoding `n` into a fresh bit stream, flushing,
and decoding the produced bytes under the same `p` yields exactly `n`. -/
theorem C3_golomb_roundtrip (p n k0 k1 : Nat) (hp1 : 1 ≤ p) (hp63 : p ≤ 63)
    (hn : n < 2 ^ 64) :
    ∃ w k, (GCSFilter.mk k0 k1 p).golomb_rice_encode BitStreamWriter.new n = .ok (w, k) ∧
      ∃ r', (GCSFilter.mk k0 k1 p).golomb_rice_decode
          (BitStreamReader.new (w.flush).1.bytes) = .ok (n, r') := by
  obtain ⟨w, k, heqw, hinvw, hbitsw⟩ :=
    golomb_rice_encode_spec (GCSFilter.mk k0 k1 p) BitStreamWriter.new n WInv_new
      (show p ≤ 64 by omega)
  obtain ⟨hinvf, hofff, hbytesf, hbf⟩ := flush_spec w hinvw
  have hrb : rBits (BitStreamReader.new (w.flush).1.bytes) =
      encBits p n ++ List.replicate ((8 - w.offset) % 8) false := by
    rw [rBits_new, hbytesf, hbitsw, wBits_new]
    simp
  obtain ⟨r', heqr, _, _⟩ := golomb_rice_decode_spec (GCSFilter.mk k0 k1 p) _ n _
    (RInv_new _ hbf) (show p ≤ 64 by omega) hn hrb
  exact ⟨w, k, heqw, r', heqr⟩

/-- Claim C3 witness: the round trip applied at `p = 19` (the BIP-158
parameter), `n = 123456789`. -/
theorem C3_golomb_roundtrip_witness :
    1 ≤ P_BIP158 ∧ P_BIP158 ≤ 63 ∧ (123456789 : Nat) < 2 ^ 64 ∧
      (∃ w k, (GCSFilter.mk 0 0 P_BIP158).golomb_rice_encode BitStreamWriter.new
            123456789 = .ok (w, k) ∧
        ∃ r', (GCSFilter.mk 0 0 P_BIP158).golomb_rice_decode
            (BitStreamReader.new (w.flush).1.bytes) = .ok (123456789, r')) :=
  ⟨by decide, by decide, by norm_num,
    C3_golomb_roundtrip P_BIP158 123456789 0 0 (by decide) (by decide) (by norm_num)⟩

/-! ### Claim C8: no maximum quotient length -/

theorem bytesBits_replicate_255 (k : Nat) :
    bytesBits (List.replicate k 255) = List.replicate (8 * k) true := by
  induction k with
  | zero => rfl
  | succ m ih =>
    rw [List.replicate_succ, bytesBits, ih]
    have h255 : byteBits 255 = List.replicate 8 true := by decide
    rw [h255, show 8 * (m + 1) = 8 + 8 * m by ring, List.replicate_add]

/-- An arbitrarily long unary run followed by a terminator and a zero
remainder decodes successfully: the decoder accepts every quotient length. -/
theorem golomb_decode_accepts_any_run (k : Nat) :
    ∃ v r', (GCSFilter.mk 0 0 P_BIP158).golomb_rice_decode
        (BitStreamReader.new (List.replicate k 255 ++ [0, 0, 0])) = .ok (v, r') := by
  have h000 : bytesBits [0, 0, 0] =
      false :: (List.replicate 19 false ++ List.replicate 4 false) := by decide
  have hrb : rBits (BitStreamReader.new (List.replicate k 255 ++ [0, 0, 0])) =
      List.replicate (8 * k) true ++ false :: (List.replicate 19 false ++
        List.replicate 4 false) := by
    rw [rBits_new, bytesBits_append, bytesBits_replicate_255, h000]
  have hrinv : RInv (BitStreamReader.new (List.replicate k 255 ++ [0, 0, 0])) := by
    apply RInv_new
    intro b hb
    rcases List.mem_append.1 hb with hb | hb
    · rw [List.eq_of_mem_replicate hb]
      omega
    · simp at hb
      omega
  obtain ⟨r1, heq1, hr1, hrb1⟩ := decUnaryLoop_spec (8 * k) _ 0 _ hrinv (by norm_num) hrb
  obtain ⟨r2, heq2, hr2, hrb2⟩ := read_ok r1 P_BIP158 (List.replicate 19 false)
    (List.replicate 4 false) hr1 (by decide) hrb1 (by simp [P_BIP158])
  refine ⟨(((0 + 8 * k) % 2 ^ 64) <<< P_BIP158 % 2 ^ 64 +
      bitsToNat (List.replicate 19 false)) % 2 ^ 64, r2, ?_⟩
  rw [GCSFilter.golomb_rice_decode, heq1]
  dsimp only
  rw [heq2]

/-- Claim C8, counterexample (negation of the claim): there is no bound `B`
past which the decoder rejects longer unary runs — for every `B` the run of
`8 * (B + 1)` one-bits (followed by a terminator and remainder) still decodes
successfully, so `golomb_rice_decode` imposes no maximum quotient length. -/
theorem C8_counterexample :
    ¬ ∃ B : Nat, ∀ k : Nat, B < k →
      ∃ e, (GCSFilter.mk 0 0 P_BIP158).golomb_rice_decode
          (BitStreamReader.new (List.replicate k 255 ++ [0, 0, 0])) = .error e := by
  rintro ⟨B, hB⟩
  obtain ⟨e, he⟩ := hB (B + 1) (by omega)
  obtain ⟨v, r', hok⟩ := golomb_decode_accepts_any_run (B + 1)
  rw [hok] at he
  cases he

/-- Claim C8 (amended): `golomb_rice_decode` imposes no quotient bound.  A
well-terminated run of any length decodes successfully, and on a finite
stream consisting entirely of 1-bits the decoder consumes the whole stream
and then fails with the end-of-stream `Io` error — consumption is bounded
only by the input length, never by a quotient cap. -/
theorem C8_unbounded_unary (k : Nat) :
    (∃ v r', (GCSFilter.mk 0 0 P_BIP158).golomb_rice_decode
        (BitStreamReader.new (List.replicate k 255 ++ [0, 0, 0])) = .ok (v, r')) ∧
      (GCSFilter.mk 0 0 P_BIP158).golomb_rice_decode
          (BitStreamReader.new (List.replicate k 255)) = .error .unexpectedEof := by
  refine ⟨golomb_decode_accepts_any_run k, ?_⟩
  have herr : decUnaryLoop (BitStreamReader.new (List.replicate k 255)) 0 =
      .error .unexpectedEof := by
    apply decUnaryLoop_err_all_ones (8 * k) _ 0
    · apply RInv_new
      intro b hb
      rw [List.eq_of_mem_replicate hb]
      omega
    · norm_num
    · rw [rBits_new, bytesBits_replicate_255]
  rw [GCSFilter.golomb_rice_decode, herr]

/-! ### External collaborators of the filter (modelled from the spec)

Two ingredients of src/golomb/mod.rs live in parts of the repository that are
not among the sources: the keyed hash (`SipHasher::hash_to_u64_with_keys`,
whose implementation file src/hash/sip/sipper.rs is absent) and the element
count codec (`crate::ser::serialize_default` / `deserialize_default`, absent
from the present src/ser.rs).  The spec declares both to be external
collaborators consumed through narrow interfaces — "a keyed 64-bit hash
function H(k0, k1, data) -> u64" and "a length-prefix codec
writeVarLen(u64) -> bytes / readVarLen(bytes) -> u64", the latter "the
standard variable-length unsigned integer codec used elsewhere by the
surrounding library" (the BTC-style `VarInt` of src/varint.rs). -/

/-- Modelled from the spec: `SipHasher::hash_to_u64_with_keys` (the SipHash-2-4
implementation is not among the sources).  Only determinism and the 64-bit
output range are relied upon; it is modelled as a fixed executable keyed
mixing function. -/
def sipHash (k0 k1 : Nat) (data : List Nat) : Nat :=
  data.foldl (fun acc b => (acc * 1099511628211 + b + 1) % 2 ^ 64)
    ((k0 * 31 + k1 * 17 + 0x736f6d6570736575) % 2 ^ 64)

theorem sipHash_lt (k0 k1 : Nat) (data : List Nat) : sipHash k0 k1 data < 2 ^ 64 := by
  rw [sipHash]
  have hinit : (k0 * 31 + k1 * 17 + 0x736f6d6570736575) % 2 ^ 64 < 2 ^ 64 :=
    Nat.mod_lt _ (by norm_num)
  generalize (k0 * 31 + k1 * 17 + 0x736f6d6570736575) % 2 ^ 64 = a at hinit
  induction data generalizing a with
  | nil => exact hinit
  | cons b bs ih => exact ih _ (Nat.mod_lt _ (by norm_num))

/-- Little-endian bytes of a value, width `w`.  Modelled from the spec: the
fixed-width integer writers of the missing `crate::ser` layer are
little-endian, as pinned down by the varint serialization tests in
src/varint.rs. -/
def leBytes (v : Nat) : Nat → List Nat
  | 0 => []
  | w + 1 => v % 256 :: leBytes (v / 256) w

/-- Value of little-endian bytes. -/
def leVal : List Nat → Nat
  | [] => 0
  | b :: bs => b + 256 * leVal bs

/-- Modelled from the spec: `crate::ser::serialize_default` of the `u64`
element count — the BTC-style `VarInt` writer of src/varint.rs (values up to
0xFC in one byte; tags 0xFD/0xFE/0xFF select 2/4/8 little-endian payload
bytes). -/
def writeVarLen (n : Nat) : List Nat :=
  if n ≤ 0xFC then [n]
  else if n ≤ 0xFFFF then 0xFD :: leBytes n 2
  else if n ≤ 0xFFFFFFFF then 0xFE :: leBytes n 4
  else 0xFF :: leBytes (n % 2 ^ 64) 8

/-- Little-endian fixed-width integer reader.  Modelled from the spec: the
`read_u16`/`read_u32`/`read_u64` primitives of the missing `crate::ser`
reader layer, little-endian per the varint serialization tests. -/
def readLE (w : Nat) (bs : List Nat) : Except Unit (Nat × List Nat) :=
  match w, bs with
  | 0, bs => .ok (0, bs)
  | _ + 1, [] => .error ()
  | w + 1, b :: bs =>
    match readLE w bs with
    | .error e => .error e
    | .ok (v, rest) => .ok (b + 256 * v, rest)

/-- Modelled from the spec: `crate::ser::deserialize_default` of the `u64`
element count — the `VarInt` reader of src/varint.rs (including its
canonicality checks), returning the value and the unconsumed input. -/
def readVarLen (bs : List Nat) : Except Unit (Nat × List Nat) :=
  match bs with
  | [] => .error ()
  | b :: rest =>
    if b = 0xFF then
      match readLE 8 rest with
      | .error e => .error e
      | .ok (x, rest2) => if x < 0x100000000 then .error () else .ok (x, rest2)
    else if b = 0xFE then
      match readLE 4 rest with
      | .error e => .error e
      | .ok (x, rest2) => if x < 0x10000 then .error () else .ok (x, rest2)
    else if b = 0xFD then
      match readLE 2 rest with
      | .error e => .error e
      | .ok (x, rest2) => if x < 0xFD then .error () else .ok (x, rest2)
    else .ok (b, rest)

theorem readLE_leBytes (w n : Nat) (h : n < 256 ^ w) (rest : List Nat) :
    readLE w (leBytes n w ++ rest) = .ok (n, rest) := by
  induction w generalizing n with
  | zero =>
    simp [Nat.pow_zero] at h
    simp [leBytes, readLE, h]
  | succ k ih =>
    rw [leBytes, List.cons_append, readLE, ih (n / 256) (by
      rw [Nat.pow_succ] at h
      exact Nat.div_lt_of_lt_mul (by omega))]
    dsimp only
    congr 2
    omega

/-- The modelled element count codec round-trips and leaves the remainder of
the input untouched. -/
theorem readVarLen_writeVarLen (n : Nat) (hn : n < 2 ^ 64) (rest : List Nat) :
    readVarLen (writeVarLen n ++ rest) = .ok (n, rest) := by
  rw [writeVarLen]
  by_cases h1 : n ≤ 0xFC
  · rw [if_pos h1]
    rw [show ([n] ++ rest) = n :: rest by simp, readVarLen]
    rw [if_neg (by omega), if_neg (by omega), if_neg (by omega)]
  · rw [if_neg h1]
    by_cases h2 : n ≤ 0xFFFF
    · rw [if_pos h2, List.cons_append, readVarLen,
        if_neg (by omega), if_neg (by omega), if_pos rfl,
        readLE_leBytes 2 n (by norm_num; omega) rest]
      dsimp only
      rw [if_neg (by omega)]
    · rw [if_neg h2]
      by_cases h3 : n ≤ 0xFFFFFFFF
      · rw [if_pos h3, List.cons_append, readVarLen,
          if_neg (by omega), if_pos rfl,
          readLE_leBytes 4 n (by norm_num; omega) rest]
        dsimp only
        rw [if_neg (by omega)]
      · rw [if_neg h3]
        have hmod : n % 2 ^ 64 = n := Nat.mod_eq_of_lt hn
        rw [hmod, List.cons_append, readVarLen, if_pos rfl,
          readLE_leBytes 8 n (by norm_num at hn ⊢; omega) rest]
        dsimp only
        rw [if_neg (by omega)]

theorem writeVarLen_bytes_lt (n : Nat) (b : Nat) (hb : b ∈ writeVarLen n)
    (hn : n < 2 ^ 64) : b < 256 := by
  have hlb : ∀ v w, b ∈ leBytes v w → b < 256 := by
    intro v w
    induction w generalizing v with
    | zero => intro h; simp [leBytes] at h
    | succ k ih =>
      intro h
      rw [leBytes] at h
      rcases List.mem_cons.1 h with h | h
      · subst h; exact Nat.mod_lt _ (by norm_num)
      · exact ih _ h
  rw [writeVarLen] at hb
  split at hb
  · rcases List.mem_singleton.1 hb with rfl
    omega
  · split at hb
    · rcases List.mem_cons.1 hb with rfl | hb
      · norm_num
      · exact hlb _ _ hb
    · split at hb
      · rcases List.mem_cons.1 hb with rfl | hb
        · norm_num
        · exact hlb _ _ hb
      · rcases List.mem_cons.1 hb with rfl | hb
        · norm_num
        · exact hlb _ _ hb

/-! ### Filter writer and reader (src/golomb/mod.rs) -/

/-- Embedding of the `Error` enum of src/golomb/mod.rs.  `Decode` and
`LimitReached` are declared by the source but never constructed by it;
`From<io::Error>` wraps every propagated I/O failure as `Io`. -/
inductive Error where
  | LimitReached : Error
  | Decode : Error
  | Io : IOError → Error
deriving DecidableEq, Repr

/-- Embedding of `GCSFilter::hash`: sip hash of the element under the
filter keys. -/
def GCSFilter.hash (f : GCSFilter) (element : List Nat) : Nat :=
  sipHash f.k0 f.k1 element

/-- Model of `HashSet<Vec<u8>>::insert`: no-op when the element is already
present; modelled with insertion order as iteration order (`finish` sorts
the mapped values, so the serialized output does not depend on the set's
iteration order). -/
def hsInsert (s : List (List Nat)) (e : List Nat) : List (List Nat) :=
  if e ∈ s then s else s ++ [e]

/-- State of `GCSFilterWriter`: the filter parameters, the accumulated
deduplicated element set, and `m`.  The wrapped sink is not part of the
state — `finish` returns the bytes it writes. -/
structure GCSFilterWriter where
  filter : GCSFilter
  elements : List (List Nat)
  m : Nat

/-- Embedding of `GCSFilterWriter::new` (the source panics on `p = 0`;
claims therefore carry `0 < p`). -/
def GCSFilterWriter.new (k0 k1 m p : Nat) : GCSFilterWriter :=
  ⟨⟨k0, k1, p⟩, [], m⟩

/-- Embedding of `GCSFilterWriter::add_element`: insert non-empty data into
the deduplicating set. -/
def GCSFilterWriter.add_element (w : GCSFilterWriter) (element : List Nat) :
    GCSFilterWriter :=
  if element = [] then w
  else { w with elements := hsInsert w.elements element }

/-- The delta-encoding loop of `GCSFilterWriter::finish`: Golomb–Rice encode
`value - last` for each sorted mapped value (on the sorted input the `u64`
subtraction cannot underflow, so `Nat` subtraction agrees with it). -/
def encodeDeltas (f : GCSFilter) (bw : BitStreamWriter) (vals : List Nat)
    (last wrote : Nat) : Except IOError (BitStreamWriter × Nat) :=
  match vals with
  | [] => .ok (bw, wrote)
  | v :: vs =>
    match f.golomb_rice_encode bw (v - last) with
    | .error e => .error e
    | .ok (bw1, k) => encodeDeltas f bw1 vs v (wrote + k)

/-- Embedding of `GCSFilterWriter::finish`: map every element to
`[0, n·m)`, sort ascending (`Vec::sort`, modelled by insertion sort — for
`u64` values the ascending permutation is unique), write the element count
with the varint codec, Golomb–Rice encode the deltas, and flush.  Returns
the bytes pushed to the sink and the byte count. -/
def GCSFilterWriter.finish (w : GCSFilterWriter) : Except IOError (List Nat × Nat) :=
  let nm := (w.elements.length * w.m) % 2 ^ 64
  let mapped := List.insertionSort (· ≤ ·)
    (w.elements.map fun e => map_to_range (w.filter.hash e) nm)
  let pre := writeVarLen mapped.length
  match encodeDeltas w.filter BitStreamWriter.new mapped 0 0 with
  | .error e => .error e
  | .ok (bw, wrote) =>
    .ok (pre ++ (bw.flush).1.bytes, pre.length + wrote + (bw.flush).2)

/-- State of `GCSFilterReader`: filter parameters and `m`. -/
structure GCSFilterReader where
  filter : GCSFilter
  m : Nat

/-- Embedding of `GCSFilterReader::new` (the source panics on `p = 0`). -/
def GCSFilterReader.new (k0 k1 m p : Nat) : GCSFilterReader :=
  ⟨⟨k0, k1, p⟩, m⟩

/-- Model of `Vec::dedup`: drop consecutive duplicates, keeping the first of
each run. -/
def vecDedup : List Nat → List Nat
  | [] => []
  | [a] => [a]
  | a :: b :: rest =>
    if a = b then vecDedup (a :: rest) else a :: vecDedup (b :: rest)
termination_by l => l.length

/-- The merge loop of `GCSFilterReader::match_any` over the sorted query
values, with `data` the running prefix sum of decoded deltas and `remaining`
the count of not-yet-decoded filter elements. -/
def matchAnyLoop (f : GCSFilter) (r : BitStreamReader) (data remaining : Nat)
    (mapped : List Nat) : Except Error Bool :=
  match mapped with
  | [] => .ok false
  | p :: rest =>
    if data = p then .ok true
    else if data < p then
      if remaining > 0 then
        match f.golomb_rice_decode r with
        | .error e => .error (.Io e)
        | .ok (d, r1) => matchAnyLoop f r1 ((data + d) % 2 ^ 64) (remaining - 1) (p :: rest)
      else .ok false
    else matchAnyLoop f r data remaining rest
termination_by (mapped.length, remaining)
decreasing_by
  · apply Prod.Lex.right
    omega
  · apply Prod.Lex.left
    simp

/-- Embedding of `GCSFilterReader::match_any`.  The element count is decoded
with `deserialize_default(..).unwrap_or(0)`: a failed decode is silently
treated as count 0.  On failure the source's reader position is unspecified
(the `0` count returns before the bit stream is ever touched, so the `[]`
chosen here is never read). -/
def GCSFilterReader.match_any (rd : GCSFilterReader) (input : List Nat)
    (query : List (List Nat)) : Except Error Bool :=
  let dec := match readVarLen input with
    | .ok nr => nr
    | .error _ => (0, [])
  let n_elements := dec.1
  let nm := (n_elements * rd.m) % 2 ^ 64
  let mapped := List.insertionSort (· ≤ ·)
    (query.map fun e => map_to_range (rd.filter.hash e) nm)
  if mapped.isEmpty then .ok true
  else if n_elements = 0 then .ok false
  else
    match rd.filter.golomb_rice_decode (BitStreamReader.new dec.2) with
    | .error e => .error (.Io e)
    | .ok (data, r1) => matchAnyLoop rd.filter r1 data (n_elements - 1) mapped

/-- The merge loop of `GCSFilterReader::match_all`. -/
def matchAllLoop (f : GCSFilter) (r : BitStreamReader) (data remaining : Nat)
    (mapped : List Nat) : Except Error Bool :=
  match mapped with
  | [] => .ok true
  | p :: rest =>
    if data = p then matchAllLoop f r data remaining rest
    else if data < p then
      if remaining > 0 then
        match f.golomb_rice_decode r with
        | .error e => .error (.Io e)
        | .ok (d, r1) => matchAllLoop f r1 ((data + d) % 2 ^ 64) (remaining - 1) (p :: rest)
      else .ok false
    else .ok false
termination_by (mapped.length, remaining)
decreasing_by
  · apply Prod.Lex.left
    simp
  · apply Prod.Lex.right
    omega

/-- Embedding of `GCSFilterReader::match_all`: like `match_any` but the
sorted query values are deduplicated, and every one must be hit. -/
def GCSFilterReader.match_all (rd : GCSFilterReader) (input : List Nat)
    (query : List (List Nat)) : Except Error Bool :=
  let dec := match readVarLen input with
    | .ok nr => nr
    | .error _ => (0, [])
  let n_elements := dec.1
  let nm := (n_elements * rd.m) % 2 ^ 64
  let mapped := vecDedup (List.insertionSort (· ≤ ·)
    (query.map fun e => map_to_range (rd.filter.hash e) nm))
  if mapped.isEmpty then .ok true
  else if n_elements = 0 then .ok false
  else
    match rd.filter.golomb_rice_decode (BitStreamReader.new dec.2) with
    | .error e => .error (.Io e)
    | .ok (data, r1) => matchAllLoop rd.filter r1 data (n_elements - 1) mapped

/-! ### Claim C10: idempotent deduplication -/

/-- Feed a list of elements to the writer in order. -/
def addAll (w : GCSFilterWriter) (es : List (List Nat)) : GCSFilterWriter :=
  es.foldl GCSFilterWriter.add_element w

theorem mem_add_element (w : GCSFilterWriter) (e x : List Nat) (hx : x ∈ w.elements) :
    x ∈ (w.add_element e).elements := by
  rw [GCSFilterWriter.add_element]
  split
  · exact hx
  · rw [hsInsert]
    split
    · exact hx
    · simp [hx]

theorem mem_add_element_self (w : GCSFilterWriter) (e : List Nat) (he : e ≠ []) :
    e ∈ (w.add_element e).elements := by
  rw [GCSFilterWriter.add_element, if_neg he]
  rw [hsInsert]
  split
  · assumption
  · simp

theorem add_element_of_mem (w : GCSFilterWriter) (e : List Nat)
    (h : e = [] ∨ e ∈ w.elements) : w.add_element e = w := by
  rw [GCSFilterWriter.add_element]
  rcases h with h | h
  · rw [if_pos h]
  · split
    · rfl
    · rw [hsInsert, if_pos h]

theorem mem_addAll (es : List (List Nat)) (w : GCSFilterWriter) (x : List Nat)
    (hx : x ∈ w.elements) : x ∈ (addAll w es).elements := by
  induction es generalizing w with
  | nil => exact hx
  | cons e es ih =>
    rw [addAll, List.foldl_cons]
    exact ih _ (mem_add_element w e x hx)

theorem addAll_append (w : GCSFilterWriter) (l1 l2 : List (List Nat)) :
    addAll w (l1 ++ l2) = addAll (addAll w l1) l2 := by
  simp [addAll, List.foldl_append]

/-- Claim C10: adding the same byte string a second time (anywhere after the
first) leaves the writer state, and hence the serialized filter produced by
`finish`, identical. -/
theorem C10_add_element_idempotent (k0 k1 m p : Nat) (pre mid post : List (List Nat))
    (e : List Nat) :
    (addAll (GCSFilterWriter.new k0 k1 m p) (pre ++ e :: mid ++ e :: post)).finish =
      (addAll (GCSFilterWriter.new k0 k1 m p) (pre ++ e :: mid ++ post)).finish := by
  suffices h : addAll (GCSFilterWriter.new k0 k1 m p) (pre ++ e :: mid ++ e :: post) =
      addAll (GCSFilterWriter.new k0 k1 m p) (pre ++ e :: mid ++ post) by rw [h]
  have hsplit1 : pre ++ e :: mid ++ e :: post = (pre ++ e :: mid) ++ (e :: post) := by
    simp
  have hsplit2 : pre ++ e :: mid ++ post = (pre ++ e :: mid) ++ post := by
    simp
  have h1 := addAll_append (GCSFilterWriter.new k0 k1 m p) (pre ++ e :: mid) (e :: post)
  have h2 := addAll_append (GCSFilterWriter.new k0 k1 m p) (pre ++ e :: mid) post
  rw [hsplit1, h1, hsplit2, h2]
  set A := addAll (GCSFilterWriter.new k0 k1 m p) (pre ++ e :: mid) with hA
  have hkey : A.add_element e = A := by
    apply add_element_of_mem
    by_cases he : e = []
    · exact Or.inl he
    · right
      have hmem : e ∈ (addAll (addAll (GCSFilterWriter.new k0 k1 m p) pre)
          (e :: mid)).elements := by
        rw [addAll, List.foldl_cons]
        exact mem_addAll mid _ e (mem_add_element_self _ e he)
      rw [hA, addAll_append]
      exact hmem
  show addAll A (e :: post) = addAll A post
  rw [addAll, List.foldl_cons, hkey]
  rfl

/-! ### Claims C5 and C6: empty filter, empty query, masked count errors -/

/-- The element count as the readers obtain it:
`deserialize_default(..).unwrap_or(0)`. -/
def decodedCount (input : List Nat) : Nat :=
  match readVarLen input with
  | .ok nr => nr.1
  | .error _ => 0

theorem insertionSort_ne_nil {l : List Nat} (hl : l ≠ []) :
    List.insertionSort (· ≤ ·) l ≠ [] := by
  intro hc
  have hlen := congrArg List.length hc
  rw [List.length_insertionSort] at hlen
  exact hl (List.eq_nil_of_length_eq_zero hlen)

theorem vecDedup_ne_nil (l : List Nat) : l ≠ [] → vecDedup l ≠ [] := by
  induction l using vecDedup.induct with
  | case1 => intro h; exact absurd rfl h
  | case2 a => intro h; rw [vecDedup]; simp
  | case3 b rest ih =>
    intro h
    rw [vecDedup, if_pos rfl]
    exact ih (by simp)
  | case4 a b rest hab ih =>
    intro h
    rw [vecDedup, if_neg hab]
    simp

theorem match_any_query_nil (rd : GCSFilterReader) (input : List Nat) :
    rd.match_any input [] = .ok true := by
  rw [GCSFilterReader.match_any]
  simp [List.insertionSort]

theorem match_all_query_nil (rd : GCSFilterReader) (input : List Nat) :
    rd.match_all input [] = .ok true := by
  rw [GCSFilterReader.match_all]
  simp [List.insertionSort, vecDedup]

theorem match_any_count_zero (rd : GCSFilterReader) (input : List Nat)
    (query : List (List Nat)) (hn : decodedCount input = 0) (hq : query ≠ []) :
    rd.match_any input query = .ok false := by
  rw [GCSFilterReader.match_any]
  rw [decodedCount] at hn
  have hmap : (query.map fun e => map_to_range (rd.filter.hash e)
      ((decodedCount input * rd.m) % 2 ^ 64)) ≠ [] := by
    simpa using hq
  cases hv : readVarLen input with
  | ok nr =>
    rw [hv] at hn
    simp only [hv]
    rw [if_neg (by
      simp only [List.isEmpty_eq_true]
      apply insertionSort_ne_nil
      simpa using hq)]
    rw [if_pos hn]
  | error u =>
    simp only [hv]
    rw [if_neg (by
      simp only [List.isEmpty_eq_true]
      apply insertionSort_ne_nil
      simpa using hq)]
    simp

theorem match_all_count_zero (rd : GCSFilterReader) (input : List Nat)
    (query : List (List Nat)) (hn : decodedCount input = 0) (hq : query ≠ []) :
    rd.match_all input query = .ok false := by
  rw [GCSFilterReader.match_all]
  rw [decodedCount] at hn
  cases hv : readVarLen input with
  | ok nr =>
    rw [hv] at hn
    simp only [hv]
    rw [if_neg (by
      simp only [List.isEmpty_eq_true]
      apply vecDedup_ne_nil
      apply insertionSort_ne_nil
      simpa using hq)]
    rw [if_pos hn]
  | error u =>
    simp only [hv]
    rw [if_neg (by
      simp only [List.isEmpty_eq_true]
      apply vecDedup_ne_nil
      apply insertionSort_ne_nil
      simpa using hq)]
    simp

/-- Claim C5: with a decoded element count of 0 and a non-empty query both
queries answer `Ok(false)`; with an empty query both answer `Ok(true)`
regardless of the filter bytes (the empty-query check runs first). -/
theorem C5_empty_filter_empty_query (rd : GCSFilterReader) (input : List Nat)
    (query : List (List Nat)) :
    (decodedCount input = 0 → query ≠ [] →
      rd.match_any input query = .ok false ∧ rd.match_all input query = .ok false) ∧
    (query = [] →
      rd.match_any input query = .ok true ∧ rd.match_all input query = .ok true) := by
  constructor
  · intro hn hq
    exact ⟨match_any_count_zero rd input query hn hq,
      match_all_count_zero rd input query hn hq⟩
  · intro hq
    subst hq
    exact ⟨match_any_query_nil rd input, match_all_query_nil rd input⟩

/-- Claim C5 witness: at the single-byte filter `[0x00]` (count 0) with query
`[[1]]`, and the empty query against the same bytes. -/
theorem C5_empty_filter_empty_query_witness :
    decodedCount [0] = 0 ∧ ([[1]] : List (List Nat)) ≠ [] ∧
      ((GCSFilterReader.new 0 0 M_BIP158 P_BIP158).match_any [0] [[1]] = .ok false ∧
        (GCSFilterReader.new 0 0 M_BIP158 P_BIP158).match_all [0] [[1]] = .ok false) ∧
      ((GCSFilterReader.new 0 0 M_BIP158 P_BIP158).match_any [0] [] = .ok true ∧
        (GCSFilterReader.new 0 0 M_BIP158 P_BIP158).match_all [0] [] = .ok true) :=
  ⟨by decide, by decide,
    (C5_empty_filter_empty_query (GCSFilterReader.new 0 0 M_BIP158 P_BIP158) [0] [[1]]).1
      (by decide) (by decide),
    (C5_empty_filter_empty_query (GCSFilterReader.new 0 0 M_BIP158 P_BIP158) [0] []).2 rfl⟩

/-- Claim C6, counterexample: on empty input — too short to decode the
element count — `match_any` answers `Ok(false)` for a non-empty query (and
`Ok(true)` for an empty one) instead of returning the read error: the
failure is masked by `unwrap_or(0)` and the input behaves exactly like a
well-formed filter with element count 0. -/
theorem C6_counterexample :
    (GCSFilterReader.new 0 0 M_BIP158 P_BIP158).match_any [] [[1]] = .ok false ∧
      (GCSFilterReader.new 0 0 M_BIP158 P_BIP158).match_all [] [[1]] = .ok false := by
  constructor
  · exact match_any_count_zero _ [] [[1]] (by decide) (by decide)
  · exact match_all_count_zero _ [] [[1]] (by decide) (by decide)

/-- Claim C6 (amended): when the leading element count cannot be decoded the
readers do not propagate the error — `unwrap_or(0)` silently substitutes
count 0, so an empty or truncated prefix behaves exactly like a well-formed
empty filter (`Ok(false)` for a non-empty query, `Ok(true)` for an empty
one). -/
theorem C6_count_error_masked (rd : GCSFilterReader) (input : List Nat)
    (query : List (List Nat)) (herr : readVarLen input = .error ()) :
    (query ≠ [] → rd.match_any input query = .ok false ∧
      rd.match_all input query = .ok false) ∧
    (query = [] → rd.match_any input query = .ok true ∧
      rd.match_all input query = .ok true) := by
  have hn : decodedCount input = 0 := by
    rw [decodedCount, herr]
  constructor
  · intro hq
    exact ⟨match_any_count_zero rd input query hn hq,
      match_all_count_zero rd input query hn hq⟩
  · intro hq
    subst hq
    exact ⟨match_any_query_nil rd input, match_all_query_nil rd input⟩

/-- Claim C6 witness: the amended behaviour at the empty input. -/
theorem C6_count_error_masked_witness :
    readVarLen [] = .error () ∧ ([[1]] : List (List Nat)) ≠ [] ∧
      ((GCSFilterReader.new 0 0 M_BIP158 P_BIP158).match_any [] [[1]] = .ok false ∧
        (GCSFilterReader.new 0 0 M_BIP158 P_BIP158).match_all [] [[1]] = .ok false) :=
  ⟨rfl, by decide,
    (C6_count_error_masked (GCSFilterReader.new 0 0 M_BIP158 P_BIP158) [] [[1]]
      rfl).1 (by decide)⟩

/-! ### Claim C7: errors surface as the Io variant -/

theorem matchAnyLoop_error_io (f : GCSFilter) (r : BitStreamReader) (data remaining : Nat)
    (mapped : List Nat) :
    ∀ e, matchAnyLoop f r data remaining mapped = .error e → ∃ ioe, e = .Io ioe := by
  induction r, data, remaining, mapped using matchAnyLoop.induct with
  | f => exact f
  | case1 r data remaining =>
    intro e he
    rw [matchAnyLoop] at he
    cases he
  | case2 r remaining p rest =>
    intro e he
    rw [matchAnyLoop, if_pos rfl] at he
    cases he
  | case3 r data remaining p rest hdp hlt hrem e' herr =>
    intro e he
    rw [matchAnyLoop, if_neg hdp, if_pos hlt, if_pos hrem, herr] at he
    dsimp only at he
    exact ⟨e', (Except.error.inj he).symm⟩
  | case4 r data remaining p rest hdp hlt hrem d r1 hok ih =>
    intro e he
    rw [matchAnyLoop, if_neg hdp, if_pos hlt, if_pos hrem, hok] at he
    exact ih e he
  | case5 r data remaining p rest hdp hlt hrem =>
    intro e he
    rw [matchAnyLoop, if_neg hdp, if_pos hlt, if_neg hrem] at he
    cases he
  | case6 r data remaining p rest hdp hlt ih =>
    intro e he
    rw [matchAnyLoop, if_neg hdp, if_neg hlt] at he
    exact ih e he

theorem matchAllLoop_error_io (f : GCSFilter) (r : BitStreamReader) (data remaining : Nat)
    (mapped : List Nat) :
    ∀ e, matchAllLoop f r data remaining mapped = .error e → ∃ ioe, e = .Io ioe := by
  induction r, data, remaining, mapped using matchAllLoop.induct with
  | f => exact f
  | case1 r data remaining =>
    intro e he
    rw [matchAllLoop] at he
    cases he
  | case2 r remaining p rest ih =>
    intro e he
    rw [matchAllLoop, if_pos rfl] at he
    exact ih e he
  | case3 r data remaining p rest hdp hlt hrem e' herr =>
    intro e he
    rw [matchAllLoop, if_neg hdp, if_pos hlt, if_pos hrem, herr] at he
    dsimp only at he
    exact ⟨e', (Except.error.inj he).symm⟩
  | case4 r data remaining p rest hdp hlt hrem d r1 hok ih =>
    intro e he
    rw [matchAllLoop, if_neg hdp, if_pos hlt, if_pos hrem, hok] at he
    exact ih e he
  | case5 r data remaining p rest hdp hlt hrem =>
    intro e he
    rw [matchAllLoop, if_neg hdp, if_pos hlt, if_neg hrem] at he
    cases he
  | case6 r data remaining p rest hdp hlt =>
    intro e he
    rw [matchAllLoop, if_neg hdp, if_neg hlt] at he
    cases he

theorem golomb_decode_ff_err (k0 k1 : Nat) :
    (GCSFilter.mk k0 k1 P_BIP158).golomb_rice_decode (BitStreamReader.new [255]) =
      .error .unexpectedEof := by
  have hr : RInv (BitStreamReader.new [255]) := by
    apply RInv_new
    intro b hb
    rw [List.mem_singleton] at hb
    omega
  have hrb : rBits (BitStreamReader.new [255]) = List.replicate 8 true := by
    rw [rBits_new]
    decide
  have herr := decUnaryLoop_err_all_ones 8 (BitStreamReader.new [255]) 0 hr (by norm_num) hrb
  rw [GCSFilter.golomb_rice_decode, herr]

theorem match_any_truncated_ff (q : List Nat) :
    (GCSFilterReader.new 0 0 M_BIP158 P_BIP158).match_any [1, 255] [q] =
      .error (.Io .unexpectedEof) := by
  rw [GCSFilterReader.match_any]
  rw [show readVarLen [1, 255] = .ok (1, [255]) from rfl]
  dsimp only [GCSFilterReader.new, List.map, List.insertionSort, List.orderedInsert]
  rw [if_neg (by simp), if_neg (by norm_num)]
  rw [golomb_decode_ff_err]

/-- Claim C7, counterexample: a filter whose bit stream ends inside a
codeword (count 1, then a single `0xff` byte: the unary run hits the end of
the stream) makes `match_any` fail with `Error::Io(UnexpectedEof)` — not
with the `Decode` variant the claim names (the source never constructs
`Decode`; `From<io::Error>` wraps stream exhaustion as `Io`). -/
theorem C7_counterexample :
    (GCSFilterReader.new 0 0 M_BIP158 P_BIP158).match_any [1, 0xff] [[0]] =
        .error (.Io .unexpectedEof) ∧
      (GCSFilterReader.new 0 0 M_BIP158 P_BIP158).match_any [1, 0xff] [[0]] ≠
        .error .Decode := by
  have h := match_any_truncated_ff [0]
  refine ⟨h, ?_⟩
  rw [h]
  intro hc
  cases Except.error.inj hc

/-- Claim C7 (amended): when the stream is exhausted mid-codeword,
`golomb_rice_decode` returns the raw end-of-stream I/O error (its error type
is `io::Error`, so it cannot produce `Error::Decode`), and `match_any` /
`match_all` surface every such failure as the `Io` variant — never as
`Decode`, which the source declares but never constructs. -/
theorem C7_decode_error_is_io (rd : GCSFilterReader) (input : List Nat)
    (query : List (List Nat)) :
    (∀ e, rd.match_any input query = .error e → ∃ ioe, e = .Io ioe) ∧
    (∀ e, rd.match_all input query = .error e → ∃ ioe, e = .Io ioe) := by
  constructor
  · intro e he
    rw [GCSFilterReader.match_any] at he
    split at he
    · cases he
    · split at he
      · cases he
      · split at he
        · exact ⟨_, (Except.error.inj he).symm⟩
        · exact matchAnyLoop_error_io _ _ _ _ _ e he
  · intro e he
    rw [GCSFilterReader.match_all] at he
    split at he
    · cases he
    · split at he
      · cases he
      · split at he
        · exact ⟨_, (Except.error.inj he).symm⟩
        · exact matchAllLoop_error_io _ _ _ _ _ e he

/-- Claim C7 witness: the amended theorem instantiated at the truncated
filter of the counterexample. -/
theorem C7_decode_error_is_io_witness :
    (GCSFilterReader.new 0 0 M_BIP158 P_BIP158).match_any [1, 0xff] [[2]] =
        .error (.Io .unexpectedEof) ∧
      (∃ ioe, (Error.Io .unexpectedEof) = .Io ioe) := by
  have h := match_any_truncated_ff [2]
  exact ⟨h, (C7_decode_error_is_io (GCSFilterReader.new 0 0 M_BIP158 P_BIP158)
    [1, 0xff] [[2]]).1 _ h⟩

/-! ### Claim C2: a filter matches its own element set

The plan: characterize the writer state after adding a duplicate-free list
of non-empty elements, describe the bit stream `finish` produces as the
concatenation of the Golomb–Rice codewords of the sorted deltas, and show
the `match_all` merge loop accepts any strictly sorted query sublist of the
decoded value sequence. -/

theorem addAll_elements (es : List (List Nat)) :
    ∀ w : GCSFilterWriter, (∀ e ∈ es, e ≠ []) → es.Nodup →
      (∀ e ∈ es, e ∉ w.elements) →
      (addAll w es).elements = w.elements ++ es ∧
        (addAll w es).filter = w.filter ∧ (addAll w es).m = w.m := by
  induction es with
  | nil => intro w _ _ _; exact ⟨by simp [addAll], rfl, rfl⟩
  | cons e es ih =>
    intro w h1 h2 h3
    have hstep : w.add_element e =
        { w with elements := w.elements ++ [e] } := by
      rw [GCSFilterWriter.add_element, if_neg (h1 e (by simp)), hsInsert,
        if_neg (h3 e (by simp))]
    have haddAll : addAll w (e :: es) = addAll (w.add_element e) es := by
      rw [addAll, List.foldl_cons, addAll]
    rw [haddAll, hstep]
    obtain ⟨hel, hfil, hm⟩ := ih { w with elements := w.elements ++ [e] }
      (fun x hx => h1 x (by simp [hx])) h2.of_cons
      (by
        intro x hx
        simp only [List.mem_append, List.mem_singleton]
        push_neg
        refine ⟨h3 x (by simp [hx]), ?_⟩
        intro hxe
        rw [List.nodup_cons] at h2
        exact h2.1 (hxe ▸ hx))
    refine ⟨?_, hfil, hm⟩
    rw [hel]
    simp

/-- The bit stream of the Golomb–Rice codewords of the deltas of a value
list against a running previous value. -/
def encListBits (p : Nat) : Nat → List Nat → List Bool
  | _, [] => []
  | last, v :: vs => encBits p (v - last) ++ encListBits p v vs

theorem encodeDeltas_spec (f : GCSFilter) (hp : f.p ≤ 64) (vals : List Nat) :
    ∀ (bw : BitStreamWriter) (last wrote : Nat), WInv bw →
      ∃ bw' k, encodeDeltas f bw vals last wrote = .ok (bw', k) ∧ WInv bw' ∧
        wBits bw' = wBits bw ++ encListBits f.p last vals := by
  induction vals with
  | nil =>
    intro bw last wrote hw
    exact ⟨bw, wrote, by rw [encodeDeltas], hw, by rw [encListBits]; simp⟩
  | cons v vs ih =>
    intro bw last wrote hw
    obtain ⟨bw1, k1, heq1, hinv1, hbits1⟩ :=
      golomb_rice_encode_spec f bw (v - last) hw hp
    obtain ⟨bw2, k2, heq2, hinv2, hbits2⟩ := ih bw1 v (wrote + k1) hinv1
    refine ⟨bw2, k2, ?_, hinv2, ?_⟩
    · rw [encodeDeltas, heq1]
      dsimp only
      exact heq2
    · rw [hbits2, hbits1, encListBits]
      simp

theorem encodeDeltas_err (f : GCSFilter) (hp : 64 < f.p) (v : Nat) (vs : List Nat)
    (bw : BitStreamWriter) (last wrote : Nat) (hw : WInv bw) :
    encodeDeltas f bw (v :: vs) last wrote = .error .invalidInput := by
  rw [encodeDeltas, golomb_rice_encode_err f bw (v - last) hw hp]

theorem map_to_range_lt64 (hash nm : Nat) : map_to_range hash nm < 2 ^ 64 := by
  rw [map_to_range]
  exact Nat.mod_lt _ (by norm_num)

theorem vecDedup_subset (l : List Nat) : ∀ x ∈ vecDedup l, x ∈ l := by
  induction l using vecDedup.induct with
  | case1 => intro x hx; rw [vecDedup] at hx; cases hx
  | case2 a => intro x hx; rwa [vecDedup] at hx
  | case3 b rest ih =>
    intro x hx
    rw [vecDedup, if_pos rfl] at hx
    have := ih x hx
    simp only [List.mem_cons] at this ⊢
    tauto
  | case4 a b rest hab ih =>
    intro x hx
    rw [vecDedup, if_neg hab] at hx
    rw [List.mem_cons] at hx
    rcases hx with hx | hx
    · simp [hx]
    · have := ih x hx
      simp only [List.mem_cons] at this ⊢
      tauto

theorem vecDedup_sorted_strict (l : List Nat) :
    List.Sorted (· ≤ ·) l → List.Sorted (· < ·) (vecDedup l) := by
  induction l using vecDedup.induct with
  | case1 => intro _; rw [vecDedup]; exact List.sorted_nil
  | case2 a => intro _; rw [vecDedup]; exact List.sorted_singleton a
  | case3 b rest ih =>
    intro hs
    rw [vecDedup, if_pos rfl]
    apply ih
    rw [List.sorted_cons] at hs ⊢
    obtain ⟨hb, hs1⟩ := hs
    rw [List.sorted_cons] at hs1
    exact ⟨fun x hx => hs1.1 x hx, hs1.2⟩
  | case4 a b rest hab ih =>
    intro hs
    rw [vecDedup, if_neg hab]
    rw [List.sorted_cons] at hs
    obtain ⟨ha, hs1⟩ := hs
    rw [List.sorted_cons]
    refine ⟨?_, ih hs1⟩
    intro x hx
    have hxm : x ∈ b :: rest := vecDedup_subset _ x hx
    have hab' : a < b := lt_of_le_of_ne (ha b (by simp)) hab
    rw [List.mem_cons] at hxm
    rcases hxm with hxb | hxr
    · omega
    · have hbx : b ≤ x := by
        rw [List.sorted_cons] at hs1
        exact hs1.1 x hxr
      omega

theorem matchAllLoop_complete (f : GCSFilter) (hp : f.p ≤ 64) (N : Nat) :
    ∀ (qs vs : List Nat) (r : BitStreamReader) (cur : Nat) (rest : List Bool),
      qs.length + vs.length ≤ N →
      RInv r → rBits r = encListBits f.p cur vs ++ rest →
      List.Sorted (· ≤ ·) (cur :: vs) →
      (∀ v ∈ vs, v < 2 ^ 64) →
      List.Sorted (· < ·) qs →
      (∀ q ∈ qs, q ∈ cur :: vs) →
      matchAllLoop f r cur vs.length qs = .ok true := by
  induction N with
  | zero =>
    intro qs vs r cur rest hN _ _ _ _ _ _
    cases qs with
    | nil => rw [matchAllLoop]
    | cons q qs' => simp at hN
  | succ n ih =>
    intro qs vs r cur rest hN hr hrb hsort hlt hq hqm
    cases qs with
    | nil => rw [matchAllLoop]
    | cons q qs' =>
      by_cases hq1 : cur = q
      · rw [matchAllLoop, if_pos hq1]
        exact ih qs' vs r cur rest (by simp at hN ⊢; omega) hr hrb hsort hlt
          hq.of_cons (fun x hx => hqm x (by simp [hx]))
      · have hqin : q ∈ vs := by
          have := hqm q (by simp)
          rw [List.mem_cons] at this
          rcases this with h | h
          · exact absurd h.symm hq1
          · exact h
        have hcq : cur < q :=
          lt_of_le_of_ne ((List.sorted_cons.mp hsort).1 q hqin) hq1
        cases vs with
        | nil => cases hqin
        | cons v vs' =>
          have hcv : cur ≤ v := (List.sorted_cons.mp hsort).1 v (by simp)
          have hv64 : v < 2 ^ 64 := hlt v (by simp)
          have hrb' : rBits r = encBits f.p (v - cur) ++
              (encListBits f.p v vs' ++ rest) := by
            rw [hrb, encListBits]
            simp
          obtain ⟨r1, hdec, hr1, hrb1⟩ := golomb_rice_decode_spec f r (v - cur)
            (encListBits f.p v vs' ++ rest) hr hp (by omega) hrb'
          rw [matchAllLoop, if_neg hq1, if_pos hcq, if_pos (by simp), hdec]
          dsimp only
          have hval : (cur + (v - cur)) % 2 ^ 64 = v := by
            rw [show cur + (v - cur) = v by omega]
            exact Nat.mod_eq_of_lt hv64
          rw [hval, show (v :: vs').length - 1 = vs'.length by simp]
          apply ih (q :: qs') vs' r1 v rest (by simp at hN ⊢; omega) hr1 hrb1
            hsort.of_cons (fun x hx => hlt x (by simp [hx])) hq
          intro x hx
          have hxcur : cur < x := by
            rw [List.mem_cons] at hx
            rcases hx with hx | hx
            · omega
            · have := (List.sorted_cons.mp hq).1 x hx
              omega
          have := hqm x hx
          rw [List.mem_cons] at this
          rcases this with h | h
          · omega
          · exact h

theorem finish_bytes (w : GCSFilterWriter) (hp : w.filter.p ≤ 64) :
    ∃ fb k pad,
      w.finish = .ok (writeVarLen w.elements.length ++ fb, k) ∧
      (∀ b ∈ fb, b < 256) ∧
      bytesBits fb = encListBits w.filter.p 0
          (List.insertionSort (· ≤ ·) (w.elements.map fun e =>
            map_to_range (w.filter.hash e) ((w.elements.length * w.m) % 2 ^ 64))) ++
        List.replicate pad false := by
  obtain ⟨bw', k', heqE, hinvE, hbitsE⟩ := encodeDeltas_spec w.filter hp
    (List.insertionSort (· ≤ ·) (w.elements.map fun e =>
      map_to_range (w.filter.hash e) ((w.elements.length * w.m) % 2 ^ 64)))
    BitStreamWriter.new 0 0 WInv_new
  obtain ⟨hinvF, hoffF, hbytesF, hltF⟩ := flush_spec bw' hinvE
  refine ⟨(bw'.flush).1.bytes,
    (writeVarLen w.elements.length).length + k' + (bw'.flush).2,
    (8 - bw'.offset) % 8, ?_, hltF, ?_⟩
  · rw [GCSFilterWriter.finish]
    rw [heqE]
    dsimp only
    rw [List.length_insertionSort, List.length_map]
  · rw [hbytesF, hbitsE, wBits_new]
    simp

theorem finish_err (w : GCSFilterWriter) (hp : 64 < w.filter.p)
    (hne : w.elements ≠ []) :
    w.finish = .error .invalidInput := by
  have hmne : (w.elements.map fun e =>
      map_to_range (w.filter.hash e) ((w.elements.length * w.m) % 2 ^ 64)) ≠ [] := by
    simpa using hne
  cases hsv : List.insertionSort (· ≤ ·) (w.elements.map fun e =>
      map_to_range (w.filter.hash e) ((w.elements.length * w.m) % 2 ^ 64)) with
  | nil => exact absurd hsv (insertionSort_ne_nil hmne)
  | cons v vs =>
    rw [GCSFilterWriter.finish]
    rw [hsv, encodeDeltas_err w.filter hp v vs BitStreamWriter.new 0 0 WInv_new]

/-- Claim C2: for every nonempty duplicate-free list of non-empty byte
strings and parameters with `p > 0`, `n_elements * m` and `n_elements`
within `u64` range, if building the filter (`add_element` for each element,
then `finish`) succeeds with serialized bytes, then `match_all` over those
bytes with the same parameters and the same element list returns
`Ok(true)`. -/
theorem C2_filter_self_match (k0 k1 m p : Nat) (es : List (List Nat))
    (hne : es ≠ []) (hnd : es.Nodup) (hee : ∀ e ∈ es, e ≠ [])
    (hp : 0 < p) (hovf : es.length * m < 2 ^ 64) (hlen : es.length < 2 ^ 64)
    (bytes : List Nat) (k : Nat)
    (hfin : (addAll (GCSFilterWriter.new k0 k1 m p) es).finish = .ok (bytes, k)) :
    (GCSFilterReader.new k0 k1 m p).match_all bytes es = .ok true := by
  obtain ⟨hel0, hfil0, hm0⟩ := addAll_elements es (GCSFilterWriter.new k0 k1 m p)
    hee hnd (by intro e _; simp [GCSFilterWriter.new])
  have hel' : (addAll (GCSFilterWriter.new k0 k1 m p) es).elements = es := by
    rw [hel0]
    simp [GCSFilterWriter.new]
  have hfil' : (addAll (GCSFilterWriter.new k0 k1 m p) es).filter = ⟨k0, k1, p⟩ := by
    rw [hfil0]
    rfl
  have hm' : (addAll (GCSFilterWriter.new k0 k1 m p) es).m = m := by
    rw [hm0]
    rfl
  -- `finish` can only succeed when `p ≤ 64` (the remainder write rejects
  -- wider widths), so derive that bound from `hfin`.
  have hp64 : p ≤ 64 := by
    by_contra hgt
    rw [finish_err _ (by rw [hfil']; show 64 < p; omega)
      (by rw [hel']; exact hne)] at hfin
    cases hfin
  obtain ⟨fb, k2, pad, hfin2, hfb, hfbits⟩ :=
    finish_bytes (addAll (GCSFilterWriter.new k0 k1 m p) es)
      (by rw [hfil']; show p ≤ 64; omega)
  rw [hel'] at hfin2
  rw [hel', hfil', hm'] at hfbits
  dsimp only at hfbits
  rw [hfin] at hfin2
  have hinj := Except.ok.inj hfin2
  rw [Prod.ext_iff] at hinj
  obtain ⟨hbytes, hk⟩ := hinj
  subst hbytes
  -- The sorted mapped value list is nonempty; split off its head.
  have hmapne : (es.map fun e =>
      map_to_range (GCSFilter.hash ⟨k0, k1, p⟩ e) ((es.length * m) % 2 ^ 64)) ≠ [] := by
    simpa using hne
  cases hsv : List.insertionSort (· ≤ ·) (es.map fun e =>
      map_to_range (GCSFilter.hash ⟨k0, k1, p⟩ e) ((es.length * m) % 2 ^ 64)) with
  | nil => exact absurd hsv (insertionSort_ne_nil hmapne)
  | cons v0 vs =>
    have hsorted : List.Sorted (· ≤ ·) (v0 :: vs) := by
      rw [← hsv]
      exact List.sorted_insertionSort _ _
    have hsublt : ∀ x ∈ v0 :: vs, x < 2 ^ 64 := by
      intro x hx
      rw [← hsv] at hx
      have := (List.perm_insertionSort (· ≤ ·) _).mem_iff.mp hx
      rw [List.mem_map] at this
      obtain ⟨e, _, he⟩ := this
      rw [← he]
      exact map_to_range_lt64 _ _
    rw [hsv] at hfbits
    have hrb : rBits (BitStreamReader.new fb) =
        encBits p v0 ++ (encListBits p v0 vs ++ List.replicate pad false) := by
      rw [rBits_new, hfbits, encListBits, Nat.sub_zero]
      simp
    obtain ⟨r1, hdec, hr1, hrb1⟩ := golomb_rice_decode_spec ⟨k0, k1, p⟩
      (BitStreamReader.new fb) v0 (encListBits p v0 vs ++ List.replicate pad false)
      (RInv_new fb hfb) hp64 (hsublt v0 (by simp)) hrb
    have hlsv : es.length = vs.length + 1 := by
      have := congrArg List.length hsv
      rw [List.length_insertionSort, List.length_map] at this
      rw [this]
      simp
    rw [GCSFilterReader.match_all, GCSFilterReader.new]
    rw [readVarLen_writeVarLen es.length hlen fb]
    dsimp only
    rw [hsv]
    rw [if_neg (by
      rw [List.isEmpty_eq_true]
      exact vecDedup_ne_nil _ (by simp))]
    rw [if_neg (by
      intro hc
      exact hne (List.eq_nil_of_length_eq_zero hc))]
    rw [hdec]
    dsimp only
    rw [show es.length - 1 = vs.length by omega]
    apply matchAllLoop_complete ⟨k0, k1, p⟩ hp64
      ((vecDedup (v0 :: vs)).length + vs.length) (vecDedup (v0 :: vs)) vs r1 v0
      (List.replicate pad false) (le_refl _) hr1 hrb1 hsorted
      (fun x hx => hsublt x (by simp [hx]))
      (vecDedup_sorted_strict _ hsorted) (vecDedup_subset _)

/-- Claim C2 witness: the self-match theorem instantiated at a concrete
one-element filter (`k0 = k1 = 0`, `m = 0`, `p = 2`, element `[1]`), whose
serialization is computed in full. -/
theorem C2_filter_self_match_witness :
    (addAll (GCSFilterWriter.new 0 0 0 2) [[1]]).finish = .ok ([1, 0], 2) ∧
      (GCSFilterReader.new 0 0 0 2).match_all [1, 0] [[1]] = .ok true := by
  have hfin : (addAll (GCSFilterWriter.new 0 0 0 2) [[1]]).finish = .ok ([1, 0], 2) := by
    simp [addAll, GCSFilterWriter.new, GCSFilterWriter.add_element, hsInsert,
      GCSFilterWriter.finish, GCSFilter.hash, map_to_range, l64, h64,
      List.insertionSort, List.orderedInsert, writeVarLen, encodeDeltas,
      GCSFilter.golomb_rice_encode, encUnary, BitStreamWriter.write, writeLoop,
      BitStreamWriter.new, BitStreamWriter.flush, leBytes]
  exact ⟨hfin, C2_filter_self_match 0 0 0 2 [[1]] (by simp) (by simp) (by simp)
    (by norm_num) (by norm_num) (by norm_num) [1, 0] 2 hfin⟩

end Mohan
